import Mathlib

/-!
# go-junit-report: `parser/parser.go`

A shallow embedding of the report data model, of `Parse` (format detection,
backlog replay and line forwarding) and of `Report.Failures`, followed by
theorems about them.

Modelling conventions.

* A Go `string` is a Lean `String`; `[]T` and `[]*T` are `List T` (the test
  pointers stored in a package are taken to be non-nil).
* Go's `int` is `Int`.  The only arithmetic in the file is the counter of
  `Failures`, which starts at 0 and is incremented at most once per test
  visited; its wrap-around at the width of `int` is not modelled.
* A Go `error` is an `Option Error`, `none` being `nil`; a `*Report` is an
  `Option Report`, `none` being `nil`.
* The interface `parser` is a record of a hidden state and the two methods on
  it; a method call returns the object with its state updated.
* `bufio.Reader.ReadLine` and the two constructors `newJsonlParser` and
  `newTextParser` are not defined in `parser.go`.  `Parse` is parametric in
  them: the constructors are arguments, and the reader is given by the
  sequence of results its `ReadLine` calls return.
* `Parse` additionally records, in order, every call it makes to those
  external functions, so that statements about which calls happen can be
  made about the same definition that computes the result.
* In string literals the braces are written as escapes: `"\x7b"` is the
  one-character string holding the opening brace, `"\x7b\x7d"` the two braces.
-/

namespace GoJunitReport

/-! ## Data model -/

/-- Go `type Result int`. -/
abbrev Result := Int

/-- The constant `PASS Result = iota`. -/
def PASS : Result := 0

/-- The constant `FAIL`, second in the `iota` block. -/
def FAIL : Result := 1

/-- The constant `SKIP`, third in the `iota` block. -/
def SKIP : Result := 2

/-- Go `type Test struct`. -/
structure Test where
  Name : String
  Time : Int
  Result : Result
  Output : List String
  deriving DecidableEq

/-- Go `type Package struct`. -/
structure Package where
  Name : String
  Time : Int
  Tests : List Test
  CoveragePct : String
  deriving DecidableEq

/-- Go `type Report struct`. -/
structure Report where
  Packages : List Package
  deriving DecidableEq

/-- The value of a `Result` that has never been assigned: Go's zero value of an
integer type. -/
def Result.zeroValue : Result := 0

/-- The value of a `Test` none of whose fields has been assigned: Go gives every
field its zero value. -/
def Test.zeroValue : Test :=
  { Name := "", Time := 0, Result := Result.zeroValue, Output := [] }

/-- A Go `error` value other than `nil`.  `Error.EOF` is the sentinel `io.EOF`;
every other error is `Error.other`. -/
inductive Error where
  | EOF
  | other (msg : String)
  deriving DecidableEq

/-- Go `type parser interface`: an object with a hidden state and the methods
`IngestLine(string) error` and `Report() (*Report, error)`. -/
structure parser where
  State : Type
  state : State
  ingestLine : State → String → State × Option Error
  report : State → Option Report × Option Error

/-- The call `p.IngestLine(l)`: the object afterwards, and the error returned. -/
def parser.IngestLine (p : parser) (l : String) : parser × Option Error :=
  ({ p with state := (p.ingestLine p.state l).1 }, (p.ingestLine p.state l).2)

/-- The call `p.Report()`. -/
def parser.Report (p : parser) : Option Report × Option Error :=
  p.report p.state

/-- What `reader.ReadLine()` returns over one run: `(l, isPrefix, nil)` for each
entry of `lines`, in order, and then the error `err` (`io.EOF` at the end of the
stream, another error when a read fails). -/
structure Reader where
  lines : List (String × Bool)
  err : Error

/-- One call made by `Parse` to a function defined outside `parser.go`, with
its arguments and its result (the new ingester of a constructor call is left
out: it is the constructor applied to the recorded package name). -/
inductive Call where
  | ReadLine (l : String) (isPrefix : Bool) (err : Option Error)
  | newJsonlParser (pkgName : String)
  | newTextParser (pkgName : String)
  | IngestLine (l : String) (err : Option Error)
  | Report (res : Option Report × Option Error)
  deriving DecidableEq

/-- The outcome of a run: `ret` is the pair `(*Report, error)` returned (`none`
when the run does not return because a method is called on the nil interface),
and `calls` the external calls made, in order. -/
structure Outcome where
  ret : Option (Option Report × Option Error)
  calls : List Call

/-- The outcome of a run that first makes the calls `cs` and then continues as `o`. -/
def Outcome.pre (cs : List Call) (o : Outcome) : Outcome :=
  { o with calls := cs ++ o.calls }

/-! ## `Parse` -/

/-- Go `strings.HasPrefix(s, prefix)`:
`len(s) >= len(prefix) && s[:len(prefix)] == prefix`. -/
def HasPrefix (s pfx : String) : Bool :=
  pfx.data.isPrefixOf s.data

/-- The result of the closure `clearBacklock`: the ingester afterwards, the
error returned and the calls made. -/
structure Replay where
  p : parser
  err : Option Error
  calls : List Call

/-- The closure `clearBacklock` of `Parse`, run on the ingester `p` and the
backlog: each line goes to `p.IngestLine` in order, and the first error is
returned at once. -/
def clearBacklock (p : parser) : List String → Replay
  | [] => ⟨p, none, []⟩
  | l :: ls =>
    match (p.IngestLine l).2 with
    | some err => ⟨(p.IngestLine l).1, some err, [Call.IngestLine l (some err)]⟩
    | none =>
      let r := clearBacklock (p.IngestLine l).1 ls
      ⟨r.p, r.err, Call.IngestLine l none :: r.calls⟩

/-- The local variables of `Parse` that live across loop iterations. -/
structure Locals where
  p : Option parser
  parserDetect : Bool
  backlog : List String

/-- Lines 92-95 of `Parse`, then the next iteration `k`: `p.IngestLine(line)`,
returning `nil, err` on an error. -/
def forward (k : Locals → Outcome) (v : Locals) (line : String) : Outcome :=
  match v.p with
  | none => ⟨none, []⟩
  | some p =>
    match (p.IngestLine line).2 with
    | some err => ⟨some (none, some err), [Call.IngestLine line (some err)]⟩
    | none =>
      (k { v with p := some (p.IngestLine line).1 }).pre [Call.IngestLine line none]

/-- Lines 85-95 of `Parse` once `p` has been assigned the new ingester `q`:
`parserDetect = false`, replay of the backlog, then the line itself. -/
def detected (k : Locals → Outcome) (v : Locals) (q : parser) (line : String) : Outcome :=
  let r := clearBacklock q v.backlog
  match r.err with
  | some err => ⟨some (none, some err), r.calls⟩
  | none => (forward k { v with p := some r.p, parserDetect := false } line).pre r.calls

/-- Lines 98-106 of `Parse`, after the loop has been left at end of stream. -/
def finish (newTextParser : String → parser) (pkgName : String) (v : Locals) : Outcome :=
  match v.p with
  | none =>
    let r := clearBacklock (newTextParser pkgName) v.backlog
    match r.err with
    | some err => ⟨some (none, some err), Call.newTextParser pkgName :: r.calls⟩
    | none =>
      ⟨some r.p.Report, Call.newTextParser pkgName :: (r.calls ++ [Call.Report r.p.Report])⟩
  | some p => ⟨some p.Report, [Call.Report p.Report]⟩

/-- The `for` loop of `Parse` (lines 66-96) followed by lines 98-106, started
with the `ReadLine` results still to come and the current local variables. -/
def parseLoop (newJsonlParser newTextParser : String → parser) (pkgName : String)
    (err : Error) : List (String × Bool) → Locals → Outcome
  | [], v =>
    if err = Error.EOF then
      (finish newTextParser pkgName v).pre [Call.ReadLine "" false (some err)]
    else
      ⟨some (none, some err), [Call.ReadLine "" false (some err)]⟩
  | (l, isPrefix) :: rest, v =>
    let line := l
    Outcome.pre [Call.ReadLine l isPrefix none] <|
      if v.parserDetect then
        if HasPrefix line "\x7b" then
          (detected (parseLoop newJsonlParser newTextParser pkgName err rest) v
            (newJsonlParser pkgName) line).pre [Call.newJsonlParser pkgName]
        else if HasPrefix line "=" then
          (detected (parseLoop newJsonlParser newTextParser pkgName err rest) v
            (newTextParser pkgName) line).pre [Call.newTextParser pkgName]
        else
          parseLoop newJsonlParser newTextParser pkgName err rest
            { v with backlog := v.backlog ++ [line] }
      else
        forward (parseLoop newJsonlParser newTextParser pkgName err rest) v line

/-- Go `func Parse(r io.Reader, pkgName string) (*Report, error)`. -/
def Parse (newJsonlParser newTextParser : String → parser) (r : Reader)
    (pkgName : String) : Outcome :=
  parseLoop newJsonlParser newTextParser pkgName r.err r.lines
    { p := none, parserDetect := true, backlog := [] }

/-! ## `Failures` -/

/-- Go `func (r *Report) Failures() int`. -/
def Report.Failures (r : Report) : Int :=
  r.Packages.foldl
    (fun count p => p.Tests.foldl (fun count t => if t.Result = FAIL then count + 1 else count) count)
    0

/-! ## Reference definitions, written from the specification -/

/-- A line that settles format detection: it begins with the record-start
marker `{` or with the free-text marker `=`. -/
def isMarker (l : String) : Bool :=
  HasPrefix l "\x7b" || HasPrefix l "="

/-- The ingester the specification selects for a stream of lines, created with
the fallback package name: the structured one when the first marker line begins
with `{`, the free-text one when it begins with `=` or when there is no marker
line. -/
def selected (newJsonlParser newTextParser : String → parser) (pkgName : String)
    (lines : List String) : parser :=
  match lines.find? isMarker with
  | some l => if HasPrefix l "\x7b" then newJsonlParser pkgName else newTextParser pkgName
  | none => newTextParser pkgName

/-- Direct ingestion, without a backlog: every line is fed to the ingester once
and in order, the first `IngestLine` error is returned with a nil report, and
an ingester that accepted every line is finalized with `Report()`. -/
def feedAll (p : parser) : List String → Option Report × Option Error
  | [] => p.Report
  | l :: ls =>
    match (p.IngestLine l).2 with
    | some err => (none, some err)
    | none => feedAll (p.IngestLine l).1 ls

/-- The number of tests of a report whose `Result` equals `FAIL`, package by
package. -/
def failedTests (r : Report) : Nat :=
  (r.Packages.map fun p => p.Tests.countP fun t => t.Result = FAIL).sum

/-- The total number of tests of a report, package by package. -/
def totalTests (r : Report) : Nat :=
  (r.Packages.map fun p => p.Tests.length).sum

/-- Modelled from the spec: `newTextParser` and the methods of the ingester it
returns are not in `parser.go`.  By the specification's scenario for the empty
stream, a Free-Text ingester that has been given no line reports zero packages
and no error. -/
def ReportsEmptyWhenFresh (newTextParser : String → parser) : Prop :=
  ∀ pkgName, (newTextParser pkgName).Report = (some ⟨[]⟩, none)

/-! ## Reading the record of calls -/

/-- What a call makes `Parse` return at once, if anything: a failed read other
than end of stream and a rejected line return `nil` and the error, and the
result of `Report()` is returned as it is. -/
def Call.returns : Call → Option (Option GoJunitReport.Report × Option Error)
  | Call.ReadLine _ _ (some err) => if err = Error.EOF then none else some (none, some err)
  | Call.IngestLine _ (some err) => some (none, some err)
  | Call.Report res => some res
  | _ => none

/-- A constructor call, `newJsonlParser` or `newTextParser`. -/
def Call.isNew : Call → Bool
  | Call.newJsonlParser _ => true
  | Call.newTextParser _ => true
  | _ => false

/-- A `ReadLine` call. -/
def Call.isRead : Call → Bool
  | Call.ReadLine _ _ _ => true
  | _ => false

/-- The constructor calls of a record, in order. -/
def constructions (cs : List Call) : List Call :=
  cs.filter Call.isNew

/-- The lines passed to `IngestLine` in a record, in order. -/
def ingested (cs : List Call) : List String :=
  cs.filterMap fun c =>
    match c with
    | Call.IngestLine l _ => some l
    | _ => none

/-- The lines successfully read in a record, in order. -/
def readLines (cs : List Call) : List String :=
  cs.filterMap fun c =>
    match c with
    | Call.ReadLine l _ none => some l
    | _ => none

/-- An `IngestLine` call that returned an error. -/
def Call.isRejection : Call → Bool
  | Call.IngestLine _ (some _) => true
  | _ => false

/-- A `Report()` call. -/
def Call.isReport : Call → Bool
  | Call.Report _ => true
  | _ => false

/-- The lines of the stream, put together from the results of `ReadLine`.  By
the contract of `bufio.Reader.ReadLine`, a result with `isPrefix` set is the
beginning of a line too long for the buffer, which the following results
continue up to and including the first one with `isPrefix` unset.  `acc` is the
part of the current line seen so far, `none` between two lines. -/
def wholeLinesFrom : Option String → List (String × Bool) → List String
  | none, [] => []
  | some acc, [] => [acc]
  | acc, (l, true) :: rest => wholeLinesFrom (some (acc.getD "" ++ l)) rest
  | acc, (l, false) :: rest => (acc.getD "" ++ l) :: wholeLinesFrom none rest

/-- The lines of the stream behind a sequence of `ReadLine` results. -/
def wholeLines (rs : List (String × Bool)) : List String :=
  wholeLinesFrom none rs

/-- The lines ingested are the lines at hand, short of a suffix that is empty
unless a line was rejected. -/
def Forwarded (lines : List String) (cs : List Call) : Prop :=
  ∃ suffix, lines = ingested cs ++ suffix ∧ (suffix = [] ∨ ∃ c ∈ cs, c.isRejection = true)

/-- A run with a `Report()` call has read the lines `rest` still to come and
then the end of the stream. -/
def ReadToEnd (rest : List String) (o : Outcome) : Prop :=
  (∃ res, Call.Report res ∈ o.calls) →
    readLines o.calls = rest ∧ Call.ReadLine "" false (some Error.EOF) ∈ o.calls

/-- Modelled from the spec: the methods of the ingesters that `newJsonlParser`
and `newTextParser` return are not in `parser.go`.  By the specification,
`Report()` finalizes and returns the accumulated tree, and the only errors of a
parse are a failed read and a rejected line: in whatever state the ingester is,
`Report()` returns a report and no error. -/
def parser.Finalizes (p : parser) : Prop :=
  ∀ s : p.State, ∃ rep, p.report s = (some rep, none)

/-- The ingester after it has been fed the given lines, in order. -/
def ingestAll (p : parser) : List String → parser
  | [] => p
  | l :: ls => ingestAll (p.IngestLine l).1 ls

/-- Every `Report()` call of the run returned a report and no error. -/
def ReportsFinal (o : Outcome) : Prop :=
  ∀ res, Call.Report res ∈ o.calls → ∃ rep, res = (some rep, none)

/-- A run that returns, and does so on its last call, the only one of its calls
that makes `Parse` return. -/
def Ends (o : Outcome) : Prop :=
  ∃ pre last res, o.calls = pre ++ [last] ∧ (∀ c ∈ pre, c.returns = none) ∧
    last.returns = some res ∧ o.ret = some res

/-- The runs of `Parse` on a reader whose reads end with `err`: calls that let
the run go on, closed by a failed read, a rejected line, or `Report()` after
the end of the stream. -/
inductive Run (err : Error) : Outcome → Prop where
  | readFail (hne : err ≠ Error.EOF) :
      Run err ⟨some (none, some err), [Call.ReadLine "" false (some err)]⟩
  | rejected (l : String) (e : Error) :
      Run err ⟨some (none, some e), [Call.IngestLine l (some e)]⟩
  | report (res : Option Report × Option Error) (heof : err = Error.EOF) :
      Run err ⟨some res, [Call.Report res]⟩
  | step (c : Call) (o : Outcome) (hc : c.returns = none) (ho : Run err o) :
      Run err (o.pre [c])

/-! ## Example ingesters -/

/-- An ingester holding the lines `s` it has been given: it stores each new
line, rejects the line `bad`, and reports one package per stored line, named
`kind ++ pkgName` and holding one passed test named after the line. -/
def recorderAt (kind pkgName : String) (s : List String) : parser where
  State := List String
  state := s
  ingestLine := fun s l =>
    (s ++ [l], if l = "bad" then some (Error.other "bad line") else none)
  report := fun s =>
    (some ⟨s.map fun l => ⟨kind ++ pkgName, 0, [⟨l, 0, PASS, []⟩], ""⟩⟩, none)

/-- A constructor of recording ingesters: the new ingester holds no line. -/
def recorder (kind pkgName : String) : parser :=
  recorderAt kind pkgName []

/-! ## Lemmas on the run of `Parse` -/

@[simp] theorem Outcome.ret_pre (cs : List Call) (o : Outcome) : (o.pre cs).ret = o.ret := rfl

@[simp] theorem Outcome.calls_pre (cs : List Call) (o : Outcome) :
    (o.pre cs).calls = cs ++ o.calls := rfl

/-- Replaying a backlog and then feeding further lines is feeding the
concatenation. -/
theorem feedAll_append (p : parser) (bl ls : List String) :
    feedAll p (bl ++ ls) =
      match (clearBacklock p bl).err with
      | some err => (none, some err)
      | none => feedAll (clearBacklock p bl).p ls := by
  induction bl generalizing p with
  | nil => simp [clearBacklock]
  | cons l bl ih =>
    simp only [List.cons_append, feedAll, clearBacklock]
    cases h : (p.IngestLine l).2 with
    | some err => simp
    | none => simp [ih]

/-- Once an ingester is active, the loop feeds it the remaining lines directly. -/
theorem parseLoop_decided_ret (newJ newT : String → parser) (pkgName : String)
    (rs : List (String × Bool)) (p : parser) (bl : List String) :
    (parseLoop newJ newT pkgName Error.EOF rs ⟨some p, false, bl⟩).ret =
      some (feedAll p (rs.map Prod.fst)) := by
  induction rs generalizing p with
  | nil => simp [parseLoop, finish, feedAll]
  | cons r rest ih =>
    obtain ⟨l, b⟩ := r
    simp only [parseLoop, forward, feedAll, List.map_cons, Outcome.ret_pre]
    cases h : (p.IngestLine l).2 with
    | some err => simp
    | none => simp [ih]

theorem selected_cons_of_not_isMarker (newJ newT : String → parser) (pkgName : String)
    (l : String) (ls : List String) (h : isMarker l = false) :
    selected newJ newT pkgName (l :: ls) = selected newJ newT pkgName ls := by
  simp [selected, List.find?, h]

/-- While detection is pending, the run returns what direct ingestion of the
backlog followed by the remaining lines returns. -/
theorem parseLoop_undecided_ret (newJ newT : String → parser) (pkgName : String)
    (rs : List (String × Bool)) (bl : List String) :
    (parseLoop newJ newT pkgName Error.EOF rs ⟨none, true, bl⟩).ret =
      some (feedAll (selected newJ newT pkgName (rs.map Prod.fst)) (bl ++ rs.map Prod.fst)) := by
  induction rs generalizing bl with
  | nil =>
    have h := feedAll_append (newT pkgName) bl []
    simp only [List.append_nil] at h
    simp only [parseLoop, finish, List.map_nil, List.append_nil, selected, List.find?, h,
      if_true, Outcome.ret_pre]
    cases (clearBacklock (newT pkgName) bl).err <;> simp [feedAll]
  | cons r rest ih =>
    obtain ⟨l, b⟩ := r
    simp only [parseLoop, List.map_cons, Outcome.ret_pre, if_true]
    by_cases hj : HasPrefix l "\x7b" = true
    · have hs : selected newJ newT pkgName (l :: rest.map Prod.fst) = newJ pkgName := by
        simp [selected, List.find?, isMarker, hj]
      rw [hs, feedAll_append]
      simp only [hj, if_true, detected, Outcome.ret_pre]
      cases (clearBacklock (newJ pkgName) bl).err with
      | some err => simp
      | none =>
        simp only [forward, feedAll]
        cases (((clearBacklock (newJ pkgName) bl).p).IngestLine l).2 with
        | some err => simp
        | none => simp [parseLoop_decided_ret]
    · by_cases ht : HasPrefix l "=" = true
      · have hs : selected newJ newT pkgName (l :: rest.map Prod.fst) = newT pkgName := by
          simp [selected, List.find?, isMarker, hj, ht]
        rw [hs, feedAll_append]
        simp only [hj, ht, if_true, detected, Outcome.ret_pre]
        cases (clearBacklock (newT pkgName) bl).err with
        | some err => simp
        | none =>
          simp only [forward, feedAll]
          cases (((clearBacklock (newT pkgName) bl).p).IngestLine l).2 with
          | some err => simp
          | none => simp [parseLoop_decided_ret]
      · have hm : isMarker l = false := by simp [isMarker, hj, ht]
        rw [selected_cons_of_not_isMarker _ _ _ _ _ hm]
        simp only [hj, ht, Bool.false_eq_true, if_false]
        rw [ih (bl ++ [l])]
        simp

theorem Ends.pre_ends {o : Outcome} (cs : List Call) (hcs : ∀ c ∈ cs, c.returns = none)
    (ho : Ends o) : Ends (o.pre cs) := by
  obtain ⟨pre, last, res, hc, hpre, hlast, hret⟩ := ho
  refine ⟨cs ++ pre, last, res, ?_, ?_, hlast, hret⟩
  · simp [hc]
  · intro c hc
    rcases List.mem_append.mp hc with h | h
    · exact hcs c h
    · exact hpre c h

theorem Run.pre_run {err : Error} {o : Outcome} (cs : List Call)
    (hcs : ∀ c ∈ cs, c.returns = none) (ho : Run err o) : Run err (o.pre cs) := by
  induction cs with
  | nil => simpa [Outcome.pre] using ho
  | cons c cs ih =>
    have h1 := Run.step c (o.pre cs) (hcs c (by simp)) (ih (fun d hd => hcs d (by simp [hd])))
    simpa [Outcome.pre] using h1

theorem clearBacklock_returns_none (p : parser) (bl : List String)
    (h : (clearBacklock p bl).err = none) :
    ∀ c ∈ (clearBacklock p bl).calls, c.returns = none := by
  induction bl generalizing p with
  | nil => simp [clearBacklock]
  | cons l bl ih =>
    simp only [clearBacklock] at h ⊢
    cases hl : (p.IngestLine l).2 with
    | some err => simp [hl] at h
    | none =>
      simp only [hl] at h ⊢
      intro c hc
      rcases List.mem_cons.mp hc with h1 | h1
      · subst h1; rfl
      · exact ih _ h c h1

theorem clearBacklock_run (p : parser) (bl : List String) (err e : Error)
    (h : (clearBacklock p bl).err = some e) :
    Run err ⟨some (none, some e), (clearBacklock p bl).calls⟩ := by
  induction bl generalizing p with
  | nil => simp [clearBacklock] at h
  | cons l bl ih =>
    simp only [clearBacklock] at h ⊢
    cases hl : (p.IngestLine l).2 with
    | some e' =>
      simp only [hl] at h ⊢
      simp only [Option.some.injEq] at h
      subst h
      exact Run.rejected l e'
    | none =>
      simp only [hl] at h ⊢
      have := (ih _ h).pre_run [Call.IngestLine l none] (by simp [Call.returns])
      simpa [Outcome.pre] using this

theorem forward_run (err : Error) (k : Locals → Outcome) (p : parser) (bl : List String)
    (line : String) (hk : ∀ q, Run err (k ⟨some q, false, bl⟩)) :
    Run err (forward k ⟨some p, false, bl⟩ line) := by
  simp only [forward]
  cases hl : (p.IngestLine line).2 with
  | some e => exact Run.rejected line e
  | none => exact (hk _).pre_run _ (by simp [Call.returns])

theorem detected_run (err : Error) (k : Locals → Outcome) (b : Bool) (bl : List String)
    (q : parser) (line : String) (hk : ∀ q, Run err (k ⟨some q, false, bl⟩)) :
    Run err (detected k ⟨none, b, bl⟩ q line) := by
  simp only [detected]
  cases hr : (clearBacklock q bl).err with
  | some e => exact clearBacklock_run q bl err e hr
  | none => exact (forward_run err k _ bl line hk).pre_run _ (clearBacklock_returns_none q bl hr)

theorem finish_run (newT : String → parser) (pkgName : String) (p : Option parser)
    (b : Bool) (bl : List String) : Run Error.EOF (finish newT pkgName ⟨p, b, bl⟩) := by
  cases p with
  | some p => exact Run.report _ rfl
  | none =>
    simp only [finish]
    cases hr : (clearBacklock (newT pkgName) bl).err with
    | some e =>
      have := (clearBacklock_run _ bl Error.EOF e hr).pre_run [Call.newTextParser pkgName]
        (by simp [Call.returns])
      simpa [Outcome.pre] using this
    | none =>
      have h1 : Run Error.EOF ⟨some (clearBacklock (newT pkgName) bl).p.Report,
          [Call.Report (clearBacklock (newT pkgName) bl).p.Report]⟩ := Run.report _ rfl
      have := h1.pre_run (Call.newTextParser pkgName :: (clearBacklock (newT pkgName) bl).calls)
        (by
          intro c hc
          rcases List.mem_cons.mp hc with h2 | h2
          · subst h2; rfl
          · exact clearBacklock_returns_none _ bl hr c h2)
      simpa [Outcome.pre] using this

theorem parseLoop_nil_run (newJ newT : String → parser) (pkgName : String) (err : Error)
    (v : Locals) : Run err (parseLoop newJ newT pkgName err [] v) := by
  simp only [parseLoop]
  split
  · next h =>
    subst h
    exact (finish_run newT pkgName _ _ _).pre_run _ (by simp [Call.returns])
  · next h => exact Run.readFail h

theorem parseLoop_decided_run (newJ newT : String → parser) (pkgName : String) (err : Error)
    (rs : List (String × Bool)) (p : parser) (bl : List String) :
    Run err (parseLoop newJ newT pkgName err rs ⟨some p, false, bl⟩) := by
  induction rs generalizing p with
  | nil => exact parseLoop_nil_run newJ newT pkgName err _
  | cons r rest ih =>
    obtain ⟨l, b⟩ := r
    simp only [parseLoop]
    exact (forward_run err _ p bl l (fun q => ih q)).pre_run _ (by simp [Call.returns])

theorem parseLoop_undecided_run (newJ newT : String → parser) (pkgName : String) (err : Error)
    (rs : List (String × Bool)) (bl : List String) :
    Run err (parseLoop newJ newT pkgName err rs ⟨none, true, bl⟩) := by
  induction rs generalizing bl with
  | nil => exact parseLoop_nil_run newJ newT pkgName err _
  | cons r rest ih =>
    obtain ⟨l, b⟩ := r
    simp only [parseLoop, if_true]
    refine Run.pre_run _ (by simp [Call.returns]) ?_
    split
    · exact (detected_run err _ _ bl _ l
        (fun q => parseLoop_decided_run newJ newT pkgName err rest q bl)).pre_run _
        (by simp [Call.returns])
    · split
      · exact (detected_run err _ _ bl _ l
          (fun q => parseLoop_decided_run newJ newT pkgName err rest q bl)).pre_run _
          (by simp [Call.returns])
      · exact ih _

/-- Every run of `Parse` is a sequence of calls that let it go on, closed by one
call that makes it return. -/
theorem Parse_run (newJ newT : String → parser) (r : Reader) (pkgName : String) :
    Run r.err (Parse newJ newT r pkgName) :=
  parseLoop_undecided_run newJ newT pkgName r.err r.lines []

theorem Run.ends {err : Error} {o : Outcome} (h : Run err o) : Ends o := by
  induction h with
  | readFail hne => exact ⟨[], _, _, rfl, by simp, by simp [Call.returns, hne], rfl⟩
  | rejected l e => exact ⟨[], _, _, rfl, by simp, rfl, rfl⟩
  | report res _ => exact ⟨[], _, _, rfl, by simp, rfl, rfl⟩
  | step c o hc _ ih => exact ih.pre_ends [c] (by simpa using hc)

/-- A run goes on to the failed read unless a line is rejected before it. -/
theorem Run.reaches {err : Error} {o : Outcome} (h : Run err o) (hne : err ≠ Error.EOF) :
    (∃ l e, Call.IngestLine l (some e) ∈ o.calls) ∨
      Call.ReadLine "" false (some err) ∈ o.calls := by
  induction h with
  | readFail _ => exact Or.inr (by simp)
  | rejected l e => exact Or.inl ⟨l, e, by simp⟩
  | report res heof => exact absurd heof hne
  | step c o _ _ ih =>
    rcases ih with ⟨l, e, hm⟩ | hm
    · exact Or.inl ⟨l, e, by simp [hm]⟩
    · exact Or.inr (by simp [hm])

/-- Every run of `Parse` returns, and it returns on its last call. -/
theorem Parse_ends (newJ newT : String → parser) (r : Reader) (pkgName : String) :
    Ends (Parse newJ newT r pkgName) :=
  (Parse_run newJ newT r pkgName).ends

/-- In a run that ends on its last call, a call that makes `Parse` return is
that last call, and the run returns what the call dictates. -/
theorem Ends.of_mem {o : Outcome} (ho : Ends o) (c : Call)
    (res : Option Report × Option Error) (hc : c ∈ o.calls) (hres : c.returns = some res) :
    o.ret = some res ∧ ∃ pre, o.calls = pre ++ [c] ∧ ∀ d ∈ pre, d.returns = none := by
  obtain ⟨pre, last, res', hcalls, hpre, hlast, hret⟩ := ho
  rw [hcalls] at hc
  rcases List.mem_append.mp hc with h | h
  · rw [hpre c h] at hres
    cases hres
  · have hcl : c = last := by simpa using h
    subst hcl
    rw [hlast] at hres
    cases hres
    exact ⟨hret, pre, hcalls, hpre⟩

theorem Ends.not_mem {o : Outcome} (ho : Ends o) (c d : Call)
    (res res' : Option Report × Option Error) (hc : c ∈ o.calls) (hres : c.returns = some res)
    (hd : d.returns = some res') (hne : c ≠ d) : d ∉ o.calls := by
  intro hmem
  obtain ⟨_, pre, h1, hpre⟩ := ho.of_mem c res hc hres
  obtain ⟨_, pre', h2, _⟩ := ho.of_mem d res' hmem hd
  rw [h1] at h2
  have := List.append_inj' h2 rfl
  exact hne (by simpa using this.2)

/-! ### Constructor calls -/

@[simp] theorem constructions_append (cs ds : List Call) :
    constructions (cs ++ ds) = constructions cs ++ constructions ds := by
  simp [constructions]

@[simp] theorem constructions_cons (c : Call) (cs : List Call) :
    constructions (c :: cs) = if c.isNew then c :: constructions cs else constructions cs := by
  simp only [constructions, List.filter_cons]

@[simp] theorem constructions_nil : constructions [] = [] := rfl

theorem clearBacklock_constructions (p : parser) (bl : List String) :
    constructions (clearBacklock p bl).calls = [] := by
  induction bl generalizing p with
  | nil => simp [clearBacklock]
  | cons l bl ih =>
    simp only [clearBacklock]
    cases (p.IngestLine l).2 with
    | some err => simp [Call.isNew]
    | none => simp [Call.isNew, ih]

theorem forward_constructions (k : Locals → Outcome) (p : parser) (bl : List String)
    (line : String) (hk : ∀ q, constructions (k ⟨some q, false, bl⟩).calls = []) :
    constructions (forward k ⟨some p, false, bl⟩ line).calls = [] := by
  simp only [forward]
  cases (p.IngestLine line).2 with
  | some err => simp [Call.isNew]
  | none => simp [Call.isNew, hk]

theorem detected_constructions (k : Locals → Outcome) (b : Bool) (bl : List String)
    (q : parser) (line : String) (hk : ∀ q, constructions (k ⟨some q, false, bl⟩).calls = []) :
    constructions (detected k ⟨none, b, bl⟩ q line).calls = [] := by
  simp only [detected]
  cases (clearBacklock q bl).err with
  | some err => simp [clearBacklock_constructions]
  | none => simp [clearBacklock_constructions, forward_constructions k _ bl line hk]

theorem parseLoop_decided_constructions (newJ newT : String → parser) (pkgName : String)
    (err : Error) (rs : List (String × Bool)) (p : parser) (bl : List String) :
    constructions (parseLoop newJ newT pkgName err rs ⟨some p, false, bl⟩).calls = [] := by
  induction rs generalizing p with
  | nil =>
    simp only [parseLoop, finish]
    split <;> simp [Call.isNew]
  | cons r rest ih =>
    obtain ⟨l, b⟩ := r
    simp only [parseLoop]
    simp [Call.isNew, forward_constructions _ p bl l (fun q => ih q)]

/-- The constructor the specification selects for a stream of lines read up to
the error `err`: decided by the first marker line, the free-text one at the end
of a stream without marker line, none when a read fails before any marker line. -/
theorem parseLoop_undecided_constructions (newJ newT : String → parser) (pkgName : String)
    (err : Error) (rs : List (String × Bool)) (bl : List String) :
    constructions (parseLoop newJ newT pkgName err rs ⟨none, true, bl⟩).calls =
      match (rs.map Prod.fst).find? isMarker with
      | some l =>
        if HasPrefix l "\x7b" then [Call.newJsonlParser pkgName] else [Call.newTextParser pkgName]
      | none => if err = Error.EOF then [Call.newTextParser pkgName] else [] := by
  induction rs generalizing bl with
  | nil =>
    simp only [parseLoop, finish, List.map_nil, List.find?]
    split
    · cases (clearBacklock (newT pkgName) bl).err <;>
        simp [Call.isNew, clearBacklock_constructions]
    · simp [Call.isNew]
  | cons r rest ih =>
    obtain ⟨l, b⟩ := r
    have hd := fun q => parseLoop_decided_constructions newJ newT pkgName err rest q bl
    simp only [parseLoop, if_true, List.map_cons, List.find?, isMarker]
    by_cases hj : HasPrefix l "\x7b" = true
    · simp [hj, Call.isNew, detected_constructions _ _ bl _ l hd]
    · by_cases ht : HasPrefix l "=" = true
      · simp [hj, ht, Call.isNew, detected_constructions _ _ bl _ l hd]
      · simp only [hj, ht, Bool.false_eq_true, if_false, Bool.or_self, Outcome.calls_pre,
          constructions_append]
        rw [ih (bl ++ [l])]
        simp [Call.isNew, isMarker]

theorem not_HasPrefix_brace_of_eq (l : String) (h : HasPrefix l "=" = true) :
    HasPrefix l "\x7b" = false := by
  unfold HasPrefix at h ⊢
  have h1 : "=".data = ['='] := rfl
  have h2 : "\x7b".data = ['{'] := rfl
  rw [h1] at h
  rw [h2]
  cases hl : l.data with
  | nil => simp [hl] at h
  | cons c cs =>
    rw [hl] at h
    simp only [List.isPrefixOf, Bool.and_true, beq_iff_eq] at h ⊢
    subst h
    decide

/-! ### `Failures` -/

theorem foldl_tests (ts : List Test) (count : Int) :
    ts.foldl (fun count t => if t.Result = FAIL then count + 1 else count) count =
      count + (ts.countP fun t => t.Result = FAIL : Nat) := by
  induction ts generalizing count with
  | nil => simp
  | cons t ts ih =>
    simp only [List.foldl_cons, ih, List.countP_cons]
    by_cases h : t.Result = FAIL
    · simp [h]; ring
    · simp [h]

theorem foldl_packages (ps : List Package) (count : Int) :
    ps.foldl
        (fun count p =>
          p.Tests.foldl (fun count t => if t.Result = FAIL then count + 1 else count) count)
        count =
      count + ((ps.map fun p => p.Tests.countP fun t => t.Result = FAIL).sum : Nat) := by
  induction ps generalizing count with
  | nil => simp
  | cons p ps ih =>
    rw [List.foldl_cons, ih, foldl_tests, List.map_cons, List.sum_cons, Nat.cast_add]
    ring

theorem Failures_eq_sum (r : Report) : r.Failures = (failedTests r : Int) := by
  simp [Report.Failures, failedTests, foldl_packages]

/-- The failed tests of a report, counted in the list of all its tests. -/
theorem failedTests_eq_countP (r : Report) :
    failedTests r = (r.Packages.flatMap Package.Tests).countP fun t => t.Result = FAIL := by
  simp only [failedTests, List.countP_flatMap]
  rfl

theorem totalTests_eq_length (r : Report) :
    totalTests r = (r.Packages.flatMap Package.Tests).length := by
  simp only [totalTests, List.length_flatMap]
  rfl

/-! ### Lines read and lines ingested -/

@[simp] theorem ingested_append (cs ds : List Call) :
    ingested (cs ++ ds) = ingested cs ++ ingested ds := by
  simp [ingested]

@[simp] theorem ingested_nil : ingested [] = [] := rfl

@[simp] theorem ingested_cons_IngestLine (l : String) (e : Option Error) (cs : List Call) :
    ingested (Call.IngestLine l e :: cs) = l :: ingested cs := by
  simp [ingested]

@[simp] theorem ingested_cons_ReadLine (l : String) (b : Bool) (e : Option Error)
    (cs : List Call) : ingested (Call.ReadLine l b e :: cs) = ingested cs := by
  simp [ingested]

@[simp] theorem ingested_cons_newJsonlParser (n : String) (cs : List Call) :
    ingested (Call.newJsonlParser n :: cs) = ingested cs := by
  simp [ingested]

@[simp] theorem ingested_cons_newTextParser (n : String) (cs : List Call) :
    ingested (Call.newTextParser n :: cs) = ingested cs := by
  simp [ingested]

@[simp] theorem ingested_cons_Report (res : Option Report × Option Error) (cs : List Call) :
    ingested (Call.Report res :: cs) = ingested cs := by
  simp [ingested]

@[simp] theorem readLines_append (cs ds : List Call) :
    readLines (cs ++ ds) = readLines cs ++ readLines ds := by
  simp [readLines]

@[simp] theorem readLines_nil : readLines [] = [] := rfl

@[simp] theorem readLines_cons_ReadLine_none (l : String) (b : Bool) (cs : List Call) :
    readLines (Call.ReadLine l b none :: cs) = l :: readLines cs := by
  simp [readLines]

@[simp] theorem readLines_cons_ReadLine_some (l : String) (b : Bool) (e : Error)
    (cs : List Call) : readLines (Call.ReadLine l b (some e) :: cs) = readLines cs := by
  simp [readLines]

@[simp] theorem readLines_cons_IngestLine (l : String) (e : Option Error) (cs : List Call) :
    readLines (Call.IngestLine l e :: cs) = readLines cs := by
  simp [readLines]

@[simp] theorem readLines_cons_newJsonlParser (n : String) (cs : List Call) :
    readLines (Call.newJsonlParser n :: cs) = readLines cs := by
  simp [readLines]

@[simp] theorem readLines_cons_newTextParser (n : String) (cs : List Call) :
    readLines (Call.newTextParser n :: cs) = readLines cs := by
  simp [readLines]

@[simp] theorem readLines_cons_Report (res : Option Report × Option Error) (cs : List Call) :
    readLines (Call.Report res :: cs) = readLines cs := by
  simp [readLines]

theorem clearBacklock_forwarded (p : parser) (bl : List String) :
    readLines (clearBacklock p bl).calls = [] ∧
    ((clearBacklock p bl).err = none → ingested (clearBacklock p bl).calls = bl) ∧
    (∀ e, (clearBacklock p bl).err = some e →
      (∃ suffix, bl = ingested (clearBacklock p bl).calls ++ suffix) ∧
        ∃ c ∈ (clearBacklock p bl).calls, c.isRejection = true) := by
  induction bl generalizing p with
  | nil => simp [clearBacklock]
  | cons l bl ih =>
    simp only [clearBacklock]
    cases hl : (p.IngestLine l).2 with
    | some err => simp [Call.isRejection]
    | none =>
      obtain ⟨h1, h2, h3⟩ := ih (p.IngestLine l).1
      refine ⟨by simpa using h1, fun h => by simp [h2 h], ?_⟩
      intro e he
      obtain ⟨⟨suffix, hs⟩, c, hc, hrej⟩ := h3 e he
      refine ⟨⟨suffix, ?_⟩, c, by simp [hc], hrej⟩
      simp only [ingested_cons_IngestLine, List.cons_append]
      rw [← hs]

theorem forward_forwarded (k : Locals → Outcome) (p : parser) (bl : List String)
    (line : String) (hk : ∀ q, Forwarded (readLines (k ⟨some q, false, bl⟩).calls)
      (k ⟨some q, false, bl⟩).calls) :
    Forwarded (line :: readLines (forward k ⟨some p, false, bl⟩ line).calls)
      (forward k ⟨some p, false, bl⟩ line).calls := by
  simp only [forward]
  cases (p.IngestLine line).2 with
  | some err => exact ⟨[], by simp, Or.inr ⟨Call.IngestLine line (some err), by simp, rfl⟩⟩
  | none =>
    obtain ⟨suffix, hs, h⟩ := hk (p.IngestLine line).1
    refine ⟨suffix, by simp [← hs], ?_⟩
    rcases h with h | ⟨c, hc, hrej⟩
    · exact Or.inl h
    · exact Or.inr ⟨c, by simp [hc], hrej⟩

theorem parseLoop_decided_forwarded (newJ newT : String → parser) (pkgName : String)
    (err : Error) (rs : List (String × Bool)) (p : parser) (bl : List String) :
    Forwarded (readLines (parseLoop newJ newT pkgName err rs ⟨some p, false, bl⟩).calls)
      (parseLoop newJ newT pkgName err rs ⟨some p, false, bl⟩).calls := by
  induction rs generalizing p with
  | nil =>
    simp only [parseLoop, finish]
    split <;> exact ⟨[], by simp, Or.inl rfl⟩
  | cons r rest ih =>
    obtain ⟨l, b⟩ := r
    simp only [parseLoop]
    obtain ⟨suffix, hs, h⟩ := forward_forwarded _ p bl l (fun q => ih q)
    refine ⟨suffix, by simpa using hs, ?_⟩
    rcases h with h | ⟨c, hc, hrej⟩
    · exact Or.inl h
    · exact Or.inr ⟨c, by simp [hc], hrej⟩

theorem detected_forwarded (k : Locals → Outcome) (b : Bool) (bl : List String) (q : parser)
    (line : String) (hk : ∀ q, Forwarded (readLines (k ⟨some q, false, bl⟩).calls)
      (k ⟨some q, false, bl⟩).calls) :
    Forwarded (bl ++ line :: readLines (detected k ⟨none, b, bl⟩ q line).calls)
      (detected k ⟨none, b, bl⟩ q line).calls := by
  obtain ⟨h1, h2, h3⟩ := clearBacklock_forwarded q bl
  simp only [detected]
  cases hr : (clearBacklock q bl).err with
  | some e =>
    obtain ⟨⟨suffix, hs⟩, c, hc, hrej⟩ := h3 e hr
    refine ⟨suffix ++ [line], ?_, Or.inr ⟨c, hc, hrej⟩⟩
    simp only [h1, List.append_nil]
    rw [← List.append_assoc, ← hs]
  | none =>
    obtain ⟨suffix, hs, h⟩ := forward_forwarded k (clearBacklock q bl).p bl line hk
    refine ⟨suffix, ?_, ?_⟩
    · simp only [Outcome.calls_pre, readLines_append, h1, List.nil_append, ingested_append,
        h2 hr, List.append_assoc]
      rw [← hs]
    · rcases h with h | ⟨c, hc, hrej⟩
      · exact Or.inl h
      · exact Or.inr ⟨c, by simp [hc], hrej⟩

/-- While detection is pending no line is ingested; once an ingester has been
constructed, the backlog and every line read since have been ingested, in
order, short of a suffix that is empty unless a line was rejected. -/
theorem parseLoop_undecided_forwarded (newJ newT : String → parser) (pkgName : String)
    (err : Error) (rs : List (String × Bool)) (bl : List String) :
    (constructions (parseLoop newJ newT pkgName err rs ⟨none, true, bl⟩).calls = [] ∧
      ingested (parseLoop newJ newT pkgName err rs ⟨none, true, bl⟩).calls = []) ∨
    Forwarded (bl ++ readLines (parseLoop newJ newT pkgName err rs ⟨none, true, bl⟩).calls)
      (parseLoop newJ newT pkgName err rs ⟨none, true, bl⟩).calls := by
  induction rs generalizing bl with
  | nil =>
    simp only [parseLoop, finish]
    split
    · right
      obtain ⟨h1, h2, h3⟩ := clearBacklock_forwarded (newT pkgName) bl
      cases hr : (clearBacklock (newT pkgName) bl).err with
      | some e =>
        obtain ⟨⟨suffix, hs⟩, c, hc, hrej⟩ := h3 e hr
        exact ⟨suffix, by simpa [h1] using hs, Or.inr ⟨c, by simp [hc], hrej⟩⟩
      | none => exact ⟨[], by simp [h1, h2 hr], Or.inl rfl⟩
    · left
      simp [Call.isNew]
  | cons r rest ih =>
    obtain ⟨l, b⟩ := r
    have hd := fun q => parseLoop_decided_forwarded newJ newT pkgName err rest q bl
    have lift : ∀ (o : Outcome) (c : Call), readLines [c] = [] → ingested [c] = [] →
        Forwarded (bl ++ l :: readLines o.calls) o.calls →
        Forwarded (bl ++ readLines (Outcome.pre [Call.ReadLine l b none] (o.pre [c])).calls)
          (Outcome.pre [Call.ReadLine l b none] (o.pre [c])).calls := by
      intro o c hc1 hc2 ⟨suffix, hs, h⟩
      refine ⟨suffix, ?_, ?_⟩
      · simp only [Outcome.calls_pre, readLines_append, ingested_append, hc1, hc2]
        simpa using hs
      · rcases h with h | ⟨d, hd, hrej⟩
        · exact Or.inl h
        · exact Or.inr ⟨d, by simp [hd], hrej⟩
    simp only [parseLoop, if_true]
    split
    · exact Or.inr (lift _ _ (by simp) (by simp) (detected_forwarded _ _ bl _ l hd))
    · split
      · exact Or.inr (lift _ _ (by simp) (by simp) (detected_forwarded _ _ bl _ l hd))
      · rcases ih (bl ++ [l]) with ⟨h1, h2⟩ | ⟨suffix, hs, h⟩
        · left
          simp [Call.isNew, h1, h2]
        · right
          refine ⟨suffix, by simpa using hs, ?_⟩
          rcases h with h | ⟨d, hd, hrej⟩
          · exact Or.inl h
          · exact Or.inr ⟨d, by simp [hd], hrej⟩

/-- The record of a run is a block of `ReadLine` calls, followed by nothing or
by a constructor call and calls none of which is a constructor call. -/
theorem parseLoop_undecided_shape (newJ newT : String → parser) (pkgName : String)
    (err : Error) (rs : List (String × Bool)) (bl : List String) :
    ∃ reads rest, (parseLoop newJ newT pkgName err rs ⟨none, true, bl⟩).calls = reads ++ rest ∧
      (∀ c ∈ reads, c.isRead = true) ∧
      (rest = [] ∨ ∃ c tail, rest = c :: tail ∧ c.isNew = true ∧ constructions tail = []) := by
  induction rs generalizing bl with
  | nil =>
    simp only [parseLoop, finish]
    split
    · refine ⟨[Call.ReadLine "" false (some err)], _, rfl, by simp [Call.isRead], Or.inr ?_⟩
      cases hr : (clearBacklock (newT pkgName) bl).err with
      | some e =>
        exact ⟨_, _, rfl, rfl, clearBacklock_constructions _ _⟩
      | none =>
        exact ⟨_, _, rfl, rfl, by simp [clearBacklock_constructions, Call.isNew]⟩
    · exact ⟨[Call.ReadLine "" false (some err)], [], rfl, by simp [Call.isRead], Or.inl rfl⟩
  | cons r rest ih =>
    obtain ⟨l, b⟩ := r
    have hd := fun q => parseLoop_decided_constructions newJ newT pkgName err rest q bl
    simp only [parseLoop, if_true]
    split
    · exact ⟨[Call.ReadLine l b none], _, rfl, by simp [Call.isRead],
        Or.inr ⟨_, _, rfl, rfl, detected_constructions _ _ bl _ l hd⟩⟩
    · split
      · exact ⟨[Call.ReadLine l b none], _, rfl, by simp [Call.isRead],
          Or.inr ⟨_, _, rfl, rfl, detected_constructions _ _ bl _ l hd⟩⟩
      · obtain ⟨reads, rest', hc, hr, h⟩ := ih (bl ++ [l])
        refine ⟨Call.ReadLine l b none :: reads, rest', by simp [hc], ?_, h⟩
        intro c hc'
        rcases List.mem_cons.mp hc' with h1 | h1
        · subst h1; rfl
        · exact hr c h1

theorem forward_readLines (k : Locals → Outcome) (p : parser) (bl : List String)
    (line : String) (rest : List String)
    (hk : ∀ q, readLines (k ⟨some q, false, bl⟩).calls <+: rest) :
    readLines (forward k ⟨some p, false, bl⟩ line).calls <+: rest := by
  simp only [forward]
  cases (p.IngestLine line).2 with
  | some err => simp
  | none => simpa using hk _

theorem detected_readLines (k : Locals → Outcome) (b : Bool) (bl : List String) (q : parser)
    (line : String) (rest : List String)
    (hk : ∀ q, readLines (k ⟨some q, false, bl⟩).calls <+: rest) :
    readLines (detected k ⟨none, b, bl⟩ q line).calls <+: rest := by
  simp only [detected]
  cases (clearBacklock q bl).err with
  | some e => simp [(clearBacklock_forwarded q bl).1]
  | none =>
    simpa [(clearBacklock_forwarded q bl).1] using forward_readLines k _ bl line rest hk

theorem finish_readLines (newT : String → parser) (pkgName : String) (v : Locals) :
    readLines (finish newT pkgName v).calls = [] := by
  simp only [finish]
  cases v.p with
  | some p => simp
  | none =>
    simp only
    cases (clearBacklock (newT pkgName) v.backlog).err <;>
      simp [(clearBacklock_forwarded (newT pkgName) v.backlog).1]

theorem parseLoop_nil_readLines (newJ newT : String → parser) (pkgName : String) (err : Error)
    (v : Locals) : readLines (parseLoop newJ newT pkgName err [] v).calls = [] := by
  simp only [parseLoop]
  split <;> simp [finish_readLines]

theorem parseLoop_decided_readLines (newJ newT : String → parser) (pkgName : String)
    (err : Error) (rs : List (String × Bool)) (p : parser) (bl : List String) :
    readLines (parseLoop newJ newT pkgName err rs ⟨some p, false, bl⟩).calls <+:
      rs.map Prod.fst := by
  induction rs generalizing p with
  | nil => simp [parseLoop_nil_readLines]
  | cons r rest ih =>
    obtain ⟨l, b⟩ := r
    simp only [parseLoop, Outcome.calls_pre, List.singleton_append,
      readLines_cons_ReadLine_none, List.map_cons]
    exact (List.prefix_cons_inj l).mpr (forward_readLines _ p bl l _ (fun q => ih q))

/-- The lines read by a run are the first lines the reader delivers, in order. -/
theorem parseLoop_undecided_readLines (newJ newT : String → parser) (pkgName : String)
    (err : Error) (rs : List (String × Bool)) (bl : List String) :
    readLines (parseLoop newJ newT pkgName err rs ⟨none, true, bl⟩).calls <+:
      rs.map Prod.fst := by
  induction rs generalizing bl with
  | nil => simp [parseLoop_nil_readLines]
  | cons r rest ih =>
    obtain ⟨l, b⟩ := r
    have hd := fun q => parseLoop_decided_readLines newJ newT pkgName err rest q bl
    simp only [parseLoop, if_true, Outcome.calls_pre, List.singleton_append,
      readLines_cons_ReadLine_none, List.map_cons]
    refine (List.prefix_cons_inj l).mpr ?_
    split
    · simpa using detected_readLines _ _ bl _ l _ hd
    · split
      · simpa using detected_readLines _ _ bl _ l _ hd
      · exact ih _

/-! ### A line returned in two pieces -/

theorem wholeLines_pair (f g : String) : wholeLines [(f, true), (g, false)] = [f ++ g] := by
  simp [wholeLines, wholeLinesFrom]

theorem isMarker_of_data (f : String) (c : Char) (cs : List Char) (hf : f.data = c :: cs)
    (h1 : c ≠ '{') (h2 : c ≠ '=') : isMarker f = false := by
  have e1 : "\x7b".data = ['{'] := rfl
  have e2 : "=".data = ['='] := rfl
  simp only [isMarker, HasPrefix, hf, e1, e2, List.isPrefixOf, Bool.and_true, Bool.or_eq_false_iff,
    beq_eq_false_iff_ne, ne_eq]
  exact ⟨fun h => h1 h.symm, fun h => h2 h.symm⟩

theorem isMarker_append_of_data (f g : String) (c : Char) (cs : List Char)
    (hf : f.data = c :: cs) (h1 : c ≠ '{') (h2 : c ≠ '=') : isMarker (f ++ g) = false :=
  isMarker_of_data (f ++ g) c (cs ++ g.data) (by rw [String.data_append, hf]; rfl) h1 h2

theorem recorderAt_IngestLine (kind pkgName : String) (s : List String) (l : String) :
    (recorderAt kind pkgName s).IngestLine l =
      (recorderAt kind pkgName (s ++ [l]),
        if l = "bad" then some (Error.other "bad line") else none) := rfl

/-- A first piece that is no marker line, followed by the piece `{}`: both are
ingested, by the structured ingester. -/
theorem Parse_two_pieces (f : String) (hf : isMarker f = false) (hbad : f ≠ "bad") :
    ingested (Parse (recorder "J") (recorder "T")
        ⟨[(f, true), ("\x7b\x7d", false)], Error.EOF⟩ "pkg").calls = [f, "\x7b\x7d"] ∧
    constructions (Parse (recorder "J") (recorder "T")
        ⟨[(f, true), ("\x7b\x7d", false)], Error.EOF⟩ "pkg").calls = [Call.newJsonlParser "pkg"] := by
  have hj : HasPrefix f "\x7b" = false := by
    simp only [isMarker, Bool.or_eq_false_iff] at hf
    exact hf.1
  have ht : HasPrefix f "=" = false := by
    simp only [isMarker, Bool.or_eq_false_iff] at hf
    exact hf.2
  have hbrace : HasPrefix "\x7b\x7d" "\x7b" = true := by decide
  have e1 : (if f = "bad" then some (Error.other "bad line") else none) = none := if_neg hbad
  have e2 : (if "\x7b\x7d" = "bad" then some (Error.other "bad line") else none) = none :=
    if_neg (by decide)
  constructor
  · simp [Parse, parseLoop, detected, forward, finish, clearBacklock, recorderAt_IngestLine,
      recorder, hj, ht, hbrace, e1, e2]
  · simp [Parse, parseLoop, detected, forward, finish, clearBacklock, recorderAt_IngestLine,
      recorder, hj, ht, hbrace, e1, e2, Call.isNew]

/-! ### A read error while detection is pending -/

/-- A stream without marker line whose reads end in an error other than end of
stream: the run consists of the reads alone. -/
theorem parseLoop_no_marker (newJ newT : String → parser) (pkgName : String) (err : Error)
    (hne : err ≠ Error.EOF) (rs : List (String × Bool)) (bl : List String)
    (h : ∀ x ∈ rs, isMarker x.1 = false) :
    parseLoop newJ newT pkgName err rs ⟨none, true, bl⟩ =
      ⟨some (none, some err),
        rs.map (fun x => Call.ReadLine x.1 x.2 none) ++ [Call.ReadLine "" false (some err)]⟩ := by
  induction rs generalizing bl with
  | nil => simp [parseLoop, hne]
  | cons r rest ih =>
    obtain ⟨l, b⟩ := r
    have hl : isMarker l = false := h (l, b) (by simp)
    simp only [isMarker, Bool.or_eq_false_iff] at hl
    simp only [parseLoop, hl.1, hl.2, Bool.false_eq_true, if_false, if_true]
    rw [ih (bl ++ [l]) (fun x hx => h x (by simp [hx]))]
    simp [Outcome.pre]

theorem constructions_reads (rs : List (String × Bool)) (e : Option Error) :
    constructions (rs.map (fun x => Call.ReadLine x.1 x.2 none) ++
      [Call.ReadLine "" false e]) = [] := by
  induction rs with
  | nil => simp [Call.isNew]
  | cons r rest ih => simpa [Call.isNew] using ih

theorem ingested_reads (rs : List (String × Bool)) (e : Option Error) :
    ingested (rs.map (fun x => Call.ReadLine x.1 x.2 none) ++
      [Call.ReadLine "" false e]) = [] := by
  induction rs with
  | nil => simp
  | cons r rest ih => simpa using ih

/-! ### The `Report()` call -/

theorem Run.report_mem {err : Error} {o : Outcome} (h : Run err o)
    (res : Option Report × Option Error) (hm : Call.Report res ∈ o.calls) :
    err = Error.EOF := by
  induction h with
  | readFail _ => simp at hm
  | rejected l e => simp at hm
  | report _ heof => exact heof
  | step c o hc _ ih =>
    simp only [Outcome.calls_pre, List.singleton_append, List.mem_cons] at hm
    rcases hm with hm | hm
    · subst hm
      simp [Call.returns] at hc
    · exact ih hm

theorem Run.read_err {err : Error} {o : Outcome} (h : Run err o) (l : String) (b : Bool)
    (e : Error) (hm : Call.ReadLine l b (some e) ∈ o.calls) : e = Error.EOF ∨ e = err := by
  induction h with
  | readFail _ =>
    simp only [List.mem_singleton, Call.ReadLine.injEq, Option.some.injEq] at hm
    exact Or.inr hm.2.2
  | rejected l' e' => simp at hm
  | report _ _ => simp at hm
  | step c o hc _ ih =>
    simp only [Outcome.calls_pre, List.singleton_append, List.mem_cons] at hm
    rcases hm with hm | hm
    · subst hm
      by_cases he : e = Error.EOF
      · exact Or.inl he
      · simp [Call.returns, he] at hc
    · exact ih hm

theorem returns_of_isReport (c : Call) (h : c.isReport = true) : c.returns ≠ none := by
  cases c <;> simp [Call.isReport, Call.returns] at h ⊢

theorem returns_of_isRejection (c : Call) (h : c.isRejection = true) :
    ∃ l e, c = Call.IngestLine l (some e) := by
  cases c with
  | IngestLine l e =>
    cases e with
    | none => simp [Call.isRejection] at h
    | some e => exact ⟨l, e, rfl⟩
  | _ => simp [Call.isRejection] at h

theorem clearBacklock_no_Report (p : parser) (bl : List String)
    (res : Option Report × Option Error) : Call.Report res ∉ (clearBacklock p bl).calls := by
  induction bl generalizing p with
  | nil => simp [clearBacklock]
  | cons l bl ih =>
    simp only [clearBacklock]
    cases (p.IngestLine l).2 with
    | some err => simp
    | none => simpa using ih _

theorem forward_readToEnd (k : Locals → Outcome) (p : parser) (bl : List String)
    (line : String) (rest : List String) (hk : ∀ q, ReadToEnd rest (k ⟨some q, false, bl⟩)) :
    ReadToEnd rest (forward k ⟨some p, false, bl⟩ line) := by
  simp only [forward]
  cases (p.IngestLine line).2 with
  | some err =>
    rintro ⟨res, hm⟩
    simp at hm
  | none =>
    rintro ⟨res, hm⟩
    simp only [Outcome.calls_pre, List.singleton_append, List.mem_cons] at hm
    rcases hm with hm | hm
    · cases hm
    · obtain ⟨h1, h2⟩ := hk _ ⟨res, hm⟩
      exact ⟨by simpa using h1, by simp [h2]⟩

theorem detected_readToEnd (k : Locals → Outcome) (b : Bool) (bl : List String) (q : parser)
    (line : String) (rest : List String) (hk : ∀ q, ReadToEnd rest (k ⟨some q, false, bl⟩)) :
    ReadToEnd rest (detected k ⟨none, b, bl⟩ q line) := by
  simp only [detected]
  cases (clearBacklock q bl).err with
  | some e =>
    rintro ⟨res, hm⟩
    exact absurd hm (clearBacklock_no_Report q bl res)
  | none =>
    rintro ⟨res, hm⟩
    simp only [Outcome.calls_pre, List.mem_append] at hm
    rcases hm with hm | hm
    · exact absurd hm (clearBacklock_no_Report q bl res)
    · obtain ⟨h1, h2⟩ := forward_readToEnd k _ bl line rest hk ⟨res, hm⟩
      exact ⟨by simpa [(clearBacklock_forwarded q bl).1] using h1, by simp [h2]⟩

theorem parseLoop_nil_readToEnd (newJ newT : String → parser) (pkgName : String) (err : Error)
    (v : Locals) : ReadToEnd [] (parseLoop newJ newT pkgName err [] v) := by
  rintro ⟨res, hm⟩
  simp only [parseLoop] at hm ⊢
  split at hm
  · next he =>
    subst he
    simp [finish_readLines]
  · simp at hm

theorem parseLoop_decided_readToEnd (newJ newT : String → parser) (pkgName : String)
    (err : Error) (rs : List (String × Bool)) (p : parser) (bl : List String) :
    ReadToEnd (rs.map Prod.fst) (parseLoop newJ newT pkgName err rs ⟨some p, false, bl⟩) := by
  induction rs generalizing p with
  | nil => exact parseLoop_nil_readToEnd newJ newT pkgName err _
  | cons r rest ih =>
    obtain ⟨l, b⟩ := r
    rintro ⟨res, hm⟩
    simp only [parseLoop, Outcome.calls_pre, List.singleton_append, List.mem_cons] at hm ⊢
    rcases hm with hm | hm
    · cases hm
    · obtain ⟨h1, h2⟩ := forward_readToEnd _ p bl l _ (fun q => ih q) ⟨res, hm⟩
      exact ⟨by simp [h1], Or.inr h2⟩

theorem parseLoop_undecided_readToEnd (newJ newT : String → parser) (pkgName : String)
    (err : Error) (rs : List (String × Bool)) (bl : List String) :
    ReadToEnd (rs.map Prod.fst) (parseLoop newJ newT pkgName err rs ⟨none, true, bl⟩) := by
  induction rs generalizing bl with
  | nil => exact parseLoop_nil_readToEnd newJ newT pkgName err _
  | cons r rest ih =>
    obtain ⟨l, b⟩ := r
    have hd := fun q => parseLoop_decided_readToEnd newJ newT pkgName err rest q bl
    rintro ⟨res, hm⟩
    simp only [parseLoop, if_true, Outcome.calls_pre, List.singleton_append,
      List.mem_cons] at hm ⊢
    rcases hm with hm | hm
    · cases hm
    · have key : ∀ o : Outcome, ReadToEnd (rest.map Prod.fst) o → Call.Report res ∈ o.calls →
          readLines (Call.ReadLine l b none :: o.calls) = ((l, b) :: rest).map Prod.fst ∧
          (Call.ReadLine "" false (some Error.EOF) = Call.ReadLine l b none ∨
            Call.ReadLine "" false (some Error.EOF) ∈ o.calls) := by
        intro o ho hmem
        obtain ⟨h1, h2⟩ := ho ⟨res, hmem⟩
        exact ⟨by simp [h1], Or.inr h2⟩
      by_cases hj : HasPrefix l "\x7b" = true
      · rw [if_pos hj] at hm ⊢
        refine key _ ?_ hm
        rintro ⟨res', hm'⟩
        simp only [Outcome.calls_pre, List.singleton_append, List.mem_cons] at hm'
        rcases hm' with hm' | hm'
        · cases hm'
        · obtain ⟨h1, h2⟩ := detected_readToEnd _ _ bl _ l _ hd ⟨res', hm'⟩
          exact ⟨by simpa using h1, by simp [h2]⟩
      · rw [if_neg hj] at hm ⊢
        by_cases ht : HasPrefix l "=" = true
        · rw [if_pos ht] at hm ⊢
          refine key _ ?_ hm
          rintro ⟨res', hm'⟩
          simp only [Outcome.calls_pre, List.singleton_append, List.mem_cons] at hm'
          rcases hm' with hm' | hm'
          · cases hm'
          · obtain ⟨h1, h2⟩ := detected_readToEnd _ _ bl _ l _ hd ⟨res', hm'⟩
            exact ⟨by simpa using h1, by simp [h2]⟩
        · rw [if_neg ht] at hm ⊢
          exact key _ (ih _) hm

/-! ### Ingesters whose `Report()` does not fail -/

theorem Finalizes_IngestLine (p : parser) (h : p.Finalizes) (l : String) :
    (p.IngestLine l).1.Finalizes :=
  fun s => h s

theorem Finalizes_Report (p : parser) (h : p.Finalizes) : ∃ rep, p.Report = (some rep, none) :=
  h p.state

theorem Finalizes_ingestAll (p : parser) (h : p.Finalizes) (ls : List String) :
    (ingestAll p ls).Finalizes := by
  induction ls generalizing p with
  | nil => exact h
  | cons l ls ih => exact ih _ (Finalizes_IngestLine p h l)

theorem clearBacklock_Finalizes (p : parser) (h : p.Finalizes) (bl : List String) :
    (clearBacklock p bl).p.Finalizes := by
  induction bl generalizing p with
  | nil => exact h
  | cons l bl ih =>
    simp only [clearBacklock]
    cases (p.IngestLine l).2 with
    | some err => exact Finalizes_IngestLine p h l
    | none => exact ih _ (Finalizes_IngestLine p h l)

/-- Direct ingestion either stops at a rejected line or returns the `Report()`
of the ingester that has been fed every line. -/
theorem feedAll_cases (p : parser) (ls : List String) :
    (∃ e, feedAll p ls = (none, some e)) ∨ feedAll p ls = (ingestAll p ls).Report := by
  induction ls generalizing p with
  | nil => exact Or.inr rfl
  | cons l ls ih =>
    simp only [feedAll, ingestAll]
    cases (p.IngestLine l).2 with
    | some err => exact Or.inl ⟨err, rfl⟩
    | none => exact ih _

theorem ReportsFinal_pre (cs : List Call) (o : Outcome)
    (hcs : ∀ res, Call.Report res ∉ cs) (ho : ReportsFinal o) : ReportsFinal (o.pre cs) := by
  intro res hm
  simp only [Outcome.calls_pre, List.mem_append] at hm
  rcases hm with hm | hm
  · exact absurd hm (hcs res)
  · exact ho res hm

theorem forward_reportsFinal (k : Locals → Outcome) (p : parser) (bl : List String)
    (line : String) (hp : p.Finalizes)
    (hk : ∀ q, q.Finalizes → ReportsFinal (k ⟨some q, false, bl⟩)) :
    ReportsFinal (forward k ⟨some p, false, bl⟩ line) := by
  simp only [forward]
  cases (p.IngestLine line).2 with
  | some err =>
    intro res hm
    simp at hm
  | none =>
    exact ReportsFinal_pre _ _ (by simp) (hk _ (Finalizes_IngestLine p hp line))

theorem detected_reportsFinal (k : Locals → Outcome) (b : Bool) (bl : List String)
    (q : parser) (line : String) (hq : q.Finalizes)
    (hk : ∀ q, q.Finalizes → ReportsFinal (k ⟨some q, false, bl⟩)) :
    ReportsFinal (detected k ⟨none, b, bl⟩ q line) := by
  simp only [detected]
  cases (clearBacklock q bl).err with
  | some e =>
    intro res hm
    exact absurd hm (clearBacklock_no_Report q bl res)
  | none =>
    exact ReportsFinal_pre _ _ (clearBacklock_no_Report q bl)
      (forward_reportsFinal k _ bl line (clearBacklock_Finalizes q hq bl) hk)

theorem parseLoop_nil_reportsFinal (newJ newT : String → parser) (pkgName : String)
    (err : Error) (p : Option parser) (b : Bool) (bl : List String)
    (hT : ∀ n, (newT n).Finalizes) (hp : ∀ q, p = some q → q.Finalizes) :
    ReportsFinal (parseLoop newJ newT pkgName err [] ⟨p, b, bl⟩) := by
  simp only [parseLoop]
  split
  · refine ReportsFinal_pre _ _ (by simp) ?_
    cases p with
    | some q =>
      intro res hm
      simp only [finish, List.mem_singleton, Call.Report.injEq] at hm
      subst hm
      exact Finalizes_Report q (hp q rfl)
    | none =>
      simp only [finish]
      cases (clearBacklock (newT pkgName) bl).err with
      | some e =>
        intro res hm
        simp only [List.mem_cons] at hm
        rcases hm with hm | hm
        · cases hm
        · exact absurd hm (clearBacklock_no_Report _ bl res)
      | none =>
        intro res hm
        simp only [List.mem_cons, List.mem_append, List.mem_singleton,
          Call.Report.injEq] at hm
        rcases hm with hm | hm | hm | hm
        · cases hm
        · exact absurd hm (clearBacklock_no_Report _ bl res)
        · subst hm
          exact Finalizes_Report _ (clearBacklock_Finalizes _ (hT pkgName) bl)
        · cases hm
  · intro res hm
    simp at hm

theorem parseLoop_decided_reportsFinal (newJ newT : String → parser) (pkgName : String)
    (err : Error) (hT : ∀ n, (newT n).Finalizes) (rs : List (String × Bool)) (p : parser)
    (bl : List String) (hp : p.Finalizes) :
    ReportsFinal (parseLoop newJ newT pkgName err rs ⟨some p, false, bl⟩) := by
  induction rs generalizing p with
  | nil =>
    refine parseLoop_nil_reportsFinal newJ newT pkgName err _ _ _ hT ?_
    intro q hq
    cases hq
    exact hp
  | cons r rest ih =>
    obtain ⟨l, b⟩ := r
    simp only [parseLoop]
    exact ReportsFinal_pre _ _ (by simp)
      (forward_reportsFinal _ p bl l hp (fun q hq => ih q hq))

theorem parseLoop_undecided_reportsFinal (newJ newT : String → parser) (pkgName : String)
    (err : Error) (hJ : ∀ n, (newJ n).Finalizes) (hT : ∀ n, (newT n).Finalizes)
    (rs : List (String × Bool)) (bl : List String) :
    ReportsFinal (parseLoop newJ newT pkgName err rs ⟨none, true, bl⟩) := by
  induction rs generalizing bl with
  | nil =>
    refine parseLoop_nil_reportsFinal newJ newT pkgName err _ _ _ hT ?_
    intro q hq
    cases hq
  | cons r rest ih =>
    obtain ⟨l, b⟩ := r
    have hd := fun q hq => parseLoop_decided_reportsFinal newJ newT pkgName err hT rest q bl hq
    simp only [parseLoop, if_true]
    refine ReportsFinal_pre _ _ (by simp) ?_
    split
    · exact ReportsFinal_pre _ _ (by simp) (detected_reportsFinal _ _ bl _ l (hJ pkgName) hd)
    · split
      · exact ReportsFinal_pre _ _ (by simp) (detected_reportsFinal _ _ bl _ l (hT pkgName) hd)
      · exact ih _

/-- Every run returns, and what it returns is fixed by its last call: a nil
report and the error after a failed read or a rejected line, and otherwise the
pair that `Report()` returned. -/
theorem Parse_last_call (newJsonlParser newTextParser : String → parser) (r : Reader)
    (pkgName : String) :
    ∃ res last, (Parse newJsonlParser newTextParser r pkgName).ret = some res ∧
      (Parse newJsonlParser newTextParser r pkgName).calls.getLast? = some last ∧
      ((∃ l b e, e ≠ Error.EOF ∧ last = Call.ReadLine l b (some e) ∧ res = (none, some e)) ∨
        (∃ l e, last = Call.IngestLine l (some e) ∧ res = (none, some e)) ∨
        last = Call.Report res) := by
  obtain ⟨pre, last, res, hcalls, _, hlast, hret⟩ :=
    Parse_ends newJsonlParser newTextParser r pkgName
  refine ⟨res, last, hret, by simp [hcalls], ?_⟩
  cases last with
  | ReadLine l b e =>
    cases e with
    | none => simp [Call.returns] at hlast
    | some e =>
      by_cases he : e = Error.EOF
      · simp [Call.returns, he] at hlast
      · simp only [Call.returns, he, if_false, Option.some.injEq] at hlast
        exact Or.inl ⟨l, b, e, he, rfl, hlast.symm⟩
  | newJsonlParser n => simp [Call.returns] at hlast
  | newTextParser n => simp [Call.returns] at hlast
  | IngestLine l e =>
    cases e with
    | none => simp [Call.returns] at hlast
    | some e =>
      simp only [Call.returns, Option.some.injEq] at hlast
      exact Or.inr (Or.inl ⟨l, e, rfl, hlast.symm⟩)
  | Report res' =>
    simp only [Call.returns, Option.some.injEq] at hlast
    exact Or.inr (Or.inr (by rw [hlast]))


/-! ## Theorems -/

/-- C1: for every stream of lines delivered without a read error, every fallback
name and all ingester implementations, `Parse` returns exactly what direct
ingestion returns: the selected ingester created up front, fed every line once
in order up to the first `IngestLine` error, and finalized with `Report()`. -/
theorem Parse_eq_feedAll (newJsonlParser newTextParser : String → parser)
    (rs : List (String × Bool)) (pkgName : String) :
    (Parse newJsonlParser newTextParser ⟨rs, Error.EOF⟩ pkgName).ret =
      some (feedAll (selected newJsonlParser newTextParser pkgName (rs.map Prod.fst))
        (rs.map Prod.fst)) := by
  have h := parseLoop_undecided_ret newJsonlParser newTextParser pkgName rs []
  simpa [Parse] using h

/-- C3: if `IngestLine` returns an error for some line, in a replay of the
backlog or on a forwarded line, `Parse` returns a nil report with exactly that
error, the failing call is the last call it makes (no further line is fed), and
`Report()` is never called. -/
theorem Parse_IngestLine_error (newJsonlParser newTextParser : String → parser) (r : Reader)
    (pkgName : String) (l : String) (err : Error)
    (h : Call.IngestLine l (some err) ∈ (Parse newJsonlParser newTextParser r pkgName).calls) :
    (Parse newJsonlParser newTextParser r pkgName).ret = some (none, some err) ∧
    (∃ pre, (Parse newJsonlParser newTextParser r pkgName).calls =
        pre ++ [Call.IngestLine l (some err)] ∧
      ∀ l' e, Call.IngestLine l' (some e) ∉ pre) ∧
    ∀ res, Call.Report res ∉ (Parse newJsonlParser newTextParser r pkgName).calls := by
  have ho := Parse_ends newJsonlParser newTextParser r pkgName
  obtain ⟨hret, pre, hcalls, hpre⟩ := ho.of_mem _ (none, some err) h rfl
  refine ⟨hret, ⟨pre, hcalls, ?_⟩, ?_⟩
  · intro l' e hmem
    have := hpre _ hmem
    simp [Call.returns] at this
  · intro res
    exact ho.not_mem _ _ (none, some err) res h rfl rfl (by simp)

/-- C3, witnessed in its three situations: a line rejected in the replay at
classification time, in the replay of the end-of-stream fallback, and when
forwarded after classification. -/
theorem Parse_IngestLine_error_witness :
    ((Parse (recorder "J") (recorder "T") ⟨[("bad", false), ("\x7b", false), ("x", false)],
        Error.EOF⟩ "pkg").ret = some (none, some (Error.other "bad line")) ∧
      (∃ pre, (Parse (recorder "J") (recorder "T") ⟨[("bad", false), ("\x7b", false), ("x", false)],
          Error.EOF⟩ "pkg").calls =
          pre ++ [Call.IngestLine "bad" (some (Error.other "bad line"))] ∧
        ∀ l' e, Call.IngestLine l' (some e) ∉ pre) ∧
      ∀ res, Call.Report res ∉ (Parse (recorder "J") (recorder "T")
        ⟨[("bad", false), ("\x7b", false), ("x", false)], Error.EOF⟩ "pkg").calls) ∧
    ((Parse (recorder "J") (recorder "T") ⟨[("a", false), ("bad", false)],
        Error.EOF⟩ "pkg").ret = some (none, some (Error.other "bad line")) ∧
      (∃ pre, (Parse (recorder "J") (recorder "T") ⟨[("a", false), ("bad", false)],
          Error.EOF⟩ "pkg").calls =
          pre ++ [Call.IngestLine "bad" (some (Error.other "bad line"))] ∧
        ∀ l' e, Call.IngestLine l' (some e) ∉ pre) ∧
      ∀ res, Call.Report res ∉ (Parse (recorder "J") (recorder "T")
        ⟨[("a", false), ("bad", false)], Error.EOF⟩ "pkg").calls) ∧
    ((Parse (recorder "J") (recorder "T") ⟨[("=", false), ("bad", false), ("x", false)],
        Error.EOF⟩ "pkg").ret = some (none, some (Error.other "bad line")) ∧
      (∃ pre, (Parse (recorder "J") (recorder "T") ⟨[("=", false), ("bad", false), ("x", false)],
          Error.EOF⟩ "pkg").calls =
          pre ++ [Call.IngestLine "bad" (some (Error.other "bad line"))] ∧
        ∀ l' e, Call.IngestLine l' (some e) ∉ pre) ∧
      ∀ res, Call.Report res ∉ (Parse (recorder "J") (recorder "T")
        ⟨[("=", false), ("bad", false), ("x", false)], Error.EOF⟩ "pkg").calls) :=
  ⟨Parse_IngestLine_error _ _ _ _ "bad" (Error.other "bad line") (by decide),
   Parse_IngestLine_error _ _ _ _ "bad" (Error.other "bad line") (by decide),
   Parse_IngestLine_error _ _ _ _ "bad" (Error.other "bad line") (by decide)⟩

/-- C4: if a `ReadLine` call fails with an error other than end of stream,
`Parse` returns a nil report with exactly that error, whatever was read or
ingested before, the failed read is its last call, and `Report()` is never
called; and a run never ends on a read that returned end of stream. -/
theorem Parse_read_error (newJsonlParser newTextParser : String → parser) (r : Reader)
    (pkgName : String) :
    (∀ l b err, err ≠ Error.EOF →
      Call.ReadLine l b (some err) ∈ (Parse newJsonlParser newTextParser r pkgName).calls →
      (Parse newJsonlParser newTextParser r pkgName).ret = some (none, some err) ∧
      (∃ pre, (Parse newJsonlParser newTextParser r pkgName).calls =
        pre ++ [Call.ReadLine l b (some err)]) ∧
      ∀ res, Call.Report res ∉ (Parse newJsonlParser newTextParser r pkgName).calls) ∧
    (r.err ≠ Error.EOF → (∀ l e, Call.IngestLine l (some e) ∉
        (Parse newJsonlParser newTextParser r pkgName).calls) →
      (Parse newJsonlParser newTextParser r pkgName).ret = some (none, some r.err)) ∧
    ∀ l b, (Parse newJsonlParser newTextParser r pkgName).calls.getLast? ≠
      some (Call.ReadLine l b (some Error.EOF)) := by
  have ho := Parse_ends newJsonlParser newTextParser r pkgName
  refine ⟨?_, ?_, ?_⟩
  · intro l b err hne h
    have hr : (Call.ReadLine l b (some err)).returns = some (none, some err) := by
      simp [Call.returns, hne]
    obtain ⟨hret, pre, hcalls, _⟩ := ho.of_mem _ _ h hr
    refine ⟨hret, ⟨pre, hcalls⟩, ?_⟩
    intro res
    exact ho.not_mem _ _ _ res h hr rfl (by simp)
  · intro hne hno
    have hrun := Parse_run newJsonlParser newTextParser r pkgName
    rcases hrun.reaches hne with ⟨l, e, hm⟩ | hm
    · exact absurd hm (hno l e)
    · exact (ho.of_mem _ (none, some r.err) hm (by simp [Call.returns, hne])).1
  · intro l b hlast
    obtain ⟨pre, last, res, hcalls, _, hl, _⟩ := ho
    rw [hcalls] at hlast
    simp at hlast
    subst hlast
    simp [Call.returns] at hl

/-- C4, witnessed on a stream whose third read fails. -/
theorem Parse_read_error_witness :
    (Parse (recorder "J") (recorder "T")
        ⟨[("=", false), ("x", false)], Error.other "read failed"⟩ "pkg").ret =
      some (none, some (Error.other "read failed")) ∧
    (∃ pre, (Parse (recorder "J") (recorder "T")
        ⟨[("=", false), ("x", false)], Error.other "read failed"⟩ "pkg").calls =
      pre ++ [Call.ReadLine "" false (some (Error.other "read failed"))]) ∧
    ∀ res, Call.Report res ∉ (Parse (recorder "J") (recorder "T")
        ⟨[("=", false), ("x", false)], Error.other "read failed"⟩ "pkg").calls :=
  (Parse_read_error (recorder "J") (recorder "T")
    ⟨[("=", false), ("x", false)], Error.other "read failed"⟩ "pkg").1
    "" false (Error.other "read failed") (by decide) (by decide)

/-- C2: the constructor `Parse` calls is decided by the first line that begins
with `{` or `=` alone: `newJsonlParser` when it begins with `{`, `newTextParser`
when it begins with `=`, and `newTextParser` when the stream ends without such a
line (no constructor when a read fails before any such line).  In particular a
first line beginning with `{` selects the structured ingester and a first line
beginning with `=` the free-text one, whatever the fallback name and the other
lines are. -/
theorem Parse_selects (newJsonlParser newTextParser : String → parser)
    (rs : List (String × Bool)) (err : Error) (pkgName : String) :
    (constructions (Parse newJsonlParser newTextParser ⟨rs, err⟩ pkgName).calls =
      match (rs.map Prod.fst).find? isMarker with
      | some l =>
        if HasPrefix l "\x7b" then [Call.newJsonlParser pkgName] else [Call.newTextParser pkgName]
      | none => if err = Error.EOF then [Call.newTextParser pkgName] else []) ∧
    (∀ l b rest, rs = (l, b) :: rest → HasPrefix l "\x7b" = true →
      constructions (Parse newJsonlParser newTextParser ⟨rs, err⟩ pkgName).calls =
        [Call.newJsonlParser pkgName]) ∧
    (∀ l b rest, rs = (l, b) :: rest → HasPrefix l "=" = true →
      constructions (Parse newJsonlParser newTextParser ⟨rs, err⟩ pkgName).calls =
        [Call.newTextParser pkgName]) := by
  have h := parseLoop_undecided_constructions newJsonlParser newTextParser pkgName err rs []
  refine ⟨h, ?_, ?_⟩
  · intro l b rest hrs hl
    subst hrs
    simp only [Parse]
    rw [h]
    simp [List.find?, isMarker, hl]
  · intro l b rest hrs hl
    subst hrs
    simp only [Parse]
    rw [h]
    simp [List.find?, isMarker, hl, not_HasPrefix_brace_of_eq l hl]

/-- C2, witnessed on a stream whose first line begins with `{` and whose second
line begins with `=`. -/
theorem Parse_selects_witness :
    constructions (Parse (recorder "J") (recorder "T")
      ⟨[("\x7ba", false), ("=b", false)], Error.EOF⟩ "pkg").calls = [Call.newJsonlParser "pkg"] :=
  (Parse_selects (recorder "J") (recorder "T") [("\x7ba", false), ("=b", false)] Error.EOF
    "pkg").2.1 "\x7ba" false [("=b", false)] rfl (by decide)

/-- C5: with ingesters whose `Report()` does not fail, `Parse` returns a non-nil
error exactly when a read failed (other than by the end of the stream) or
`IngestLine` rejected a line; the error is then that one and the report is nil.
In every other case it returns, with no error, the report that `Report()` of the
active ingester gives after every line of the stream has been fed to it; and it
never returns a report together with an error. -/
theorem Parse_error_iff (newJsonlParser newTextParser : String → parser) (r : Reader)
    (pkgName : String) (hJ : ∀ n, (newJsonlParser n).Finalizes)
    (hT : ∀ n, (newTextParser n).Finalizes) :
    ∃ rep err, (Parse newJsonlParser newTextParser r pkgName).ret = some (rep, err) ∧
      (err ≠ none ↔
        (∃ l b e, e ≠ Error.EOF ∧
          Call.ReadLine l b (some e) ∈ (Parse newJsonlParser newTextParser r pkgName).calls) ∨
        ∃ l e, Call.IngestLine l (some e) ∈
          (Parse newJsonlParser newTextParser r pkgName).calls) ∧
      (∀ l b e, e ≠ Error.EOF →
        Call.ReadLine l b (some e) ∈ (Parse newJsonlParser newTextParser r pkgName).calls →
        rep = none ∧ err = some e) ∧
      (∀ l e, Call.IngestLine l (some e) ∈
          (Parse newJsonlParser newTextParser r pkgName).calls →
        rep = none ∧ err = some e) ∧
      (err = none →
        (rep, err) = (ingestAll
          (selected newJsonlParser newTextParser pkgName (r.lines.map Prod.fst))
          (r.lines.map Prod.fst)).Report ∧
        rep ≠ none ∧
        (Parse newJsonlParser newTextParser r pkgName).calls.getLast? =
          some (Call.Report (rep, err))) ∧
      (rep = none ∨ err = none) := by
  obtain ⟨res, last, hret, hlast, hcase⟩ :=
    Parse_last_call newJsonlParser newTextParser r pkgName
  have hrun := Parse_run newJsonlParser newTextParser r pkgName
  have ho := hrun.ends
  have hfin := parseLoop_undecided_reportsFinal newJsonlParser newTextParser pkgName r.err
    hJ hT r.lines []
  have hmem : last ∈ (Parse newJsonlParser newTextParser r pkgName).calls :=
    List.mem_of_mem_getLast? hlast
  obtain ⟨rep, err⟩ := res
  -- a call that makes the run return fixes the pair returned
  have hfix : ∀ (c : Call) (x : Option Report × Option Error),
      c ∈ (Parse newJsonlParser newTextParser r pkgName).calls → c.returns = some x →
      (rep, err) = x := by
    intro c x hc hx
    have h1 := (ho.of_mem c x hc hx).1
    rw [hret] at h1
    exact Option.some.inj h1
  have hread : ∀ l b e, e ≠ Error.EOF →
      Call.ReadLine l b (some e) ∈ (Parse newJsonlParser newTextParser r pkgName).calls →
      rep = none ∧ err = some e := by
    intro l b e he hc
    have h1 := hfix _ (none, some e) hc (by simp [Call.returns, he])
    exact ⟨congrArg Prod.fst h1, congrArg Prod.snd h1⟩
  have hrej : ∀ l e, Call.IngestLine l (some e) ∈
      (Parse newJsonlParser newTextParser r pkgName).calls → rep = none ∧ err = some e := by
    intro l e hc
    have h1 := hfix _ (none, some e) hc rfl
    exact ⟨congrArg Prod.fst h1, congrArg Prod.snd h1⟩
  -- when the last call is `Report()`, it returned a report and no error
  have hrep : last = Call.Report (rep, err) → ∃ rp, rep = some rp ∧ err = none := by
    intro hl
    obtain ⟨rp, hrp⟩ := hfin (rep, err) (hl ▸ hmem)
    exact ⟨rp, congrArg Prod.fst hrp, congrArg Prod.snd hrp⟩
  refine ⟨rep, err, hret, ⟨?_, ?_⟩, hread, hrej, ?_, ?_⟩
  · intro herr
    rcases hcase with ⟨l, b, e, he, hl, _⟩ | ⟨l, e, hl, _⟩ | hl
    · exact Or.inl ⟨l, b, e, he, hl ▸ hmem⟩
    · exact Or.inr ⟨l, e, hl ▸ hmem⟩
    · obtain ⟨_, _, h2⟩ := hrep hl
      exact absurd h2 herr
  · rintro (⟨l, b, e, he, hc⟩ | ⟨l, e, hc⟩)
    · rw [(hread l b e he hc).2]
      simp
    · rw [(hrej l e hc).2]
      simp
  · intro herr
    rcases hcase with ⟨l, b, e, he, hl, hres⟩ | ⟨l, e, hl, hres⟩ | hl
    · rw [herr] at hres
      cases hres
    · rw [herr] at hres
      cases hres
    · obtain ⟨rp, h1, _⟩ := hrep hl
      have heof : r.err = Error.EOF := hrun.report_mem (rep, err) (hl ▸ hmem)
      have hfeed := parseLoop_undecided_ret newJsonlParser newTextParser pkgName r.lines []
      have hret' : (parseLoop newJsonlParser newTextParser pkgName r.err r.lines
          ⟨none, true, []⟩).ret = some (rep, err) := hret
      rw [heof, hfeed] at hret'
      simp only [List.nil_append, Option.some.injEq] at hret'
      refine ⟨?_, by simp [h1], hl ▸ hlast⟩
      rcases feedAll_cases (selected newJsonlParser newTextParser pkgName
        (r.lines.map Prod.fst)) (r.lines.map Prod.fst) with ⟨e, he⟩ | he
      · rw [he] at hret'
        rw [herr] at hret'
        cases hret'
      · rw [← he]
        exact hret'.symm
  · rcases hcase with ⟨l, b, e, he, hl, hres⟩ | ⟨l, e, hl, hres⟩ | hl
    · exact Or.inl (congrArg Prod.fst hres)
    · exact Or.inl (congrArg Prod.fst hres)
    · exact Or.inr (hrep hl).choose_spec.2

/-- C5, witnessed with the recording ingesters on a stream that ends cleanly:
no error is returned, and the report is the one of the structured ingester fed
the three lines. -/
theorem Parse_error_iff_witness :
    ∃ rep err, (Parse (recorder "J") (recorder "T")
        ⟨[("a", false), ("\x7bb", false), ("c", false)], Error.EOF⟩ "pkg").ret =
        some (rep, err) ∧
      (err ≠ none ↔
        (∃ l b e, e ≠ Error.EOF ∧
          Call.ReadLine l b (some e) ∈ (Parse (recorder "J") (recorder "T")
            ⟨[("a", false), ("\x7bb", false), ("c", false)], Error.EOF⟩ "pkg").calls) ∨
        ∃ l e, Call.IngestLine l (some e) ∈ (Parse (recorder "J") (recorder "T")
            ⟨[("a", false), ("\x7bb", false), ("c", false)], Error.EOF⟩ "pkg").calls) ∧
      (rep = none ∨ err = none) ∧
      rep = some ⟨[⟨"Jpkg", 0, [⟨"a", 0, PASS, []⟩], ""⟩,
        ⟨"Jpkg", 0, [⟨"\x7bb", 0, PASS, []⟩], ""⟩, ⟨"Jpkg", 0, [⟨"c", 0, PASS, []⟩], ""⟩]⟩ ∧
      err = none := by
  obtain ⟨rep, err, h1, h2, _, _, _, h6⟩ :=
    Parse_error_iff (recorder "J") (recorder "T")
      ⟨[("a", false), ("\x7bb", false), ("c", false)], Error.EOF⟩ "pkg"
      (fun _ _ => ⟨_, rfl⟩) (fun _ _ => ⟨_, rfl⟩)
  have hv : (Parse (recorder "J") (recorder "T")
      ⟨[("a", false), ("\x7bb", false), ("c", false)], Error.EOF⟩ "pkg").ret =
      some (some ⟨[⟨"Jpkg", 0, [⟨"a", 0, PASS, []⟩], ""⟩,
        ⟨"Jpkg", 0, [⟨"\x7bb", 0, PASS, []⟩], ""⟩, ⟨"Jpkg", 0, [⟨"c", 0, PASS, []⟩], ""⟩]⟩,
        none) := by decide
  rw [h1] at hv
  have hv' := Option.some.inj hv
  exact ⟨rep, err, h1, h2, h6, congrArg Prod.fst hv', congrArg Prod.snd hv'⟩

/-- C6: `Failures()` is the number of tests, summed over all packages, whose
`Result` equals `FAIL`; `PASS` and `SKIP` differ from `FAIL` and so are not
counted, a package with no tests contributes 0, and a report with zero packages
yields 0. -/
theorem Failures_eq_failedTests (r : Report) :
    r.Failures = (failedTests r : Int) ∧
    (PASS ≠ FAIL ∧ SKIP ≠ FAIL) ∧
    (∀ ps qs name time cov,
      (Report.mk (ps ++ ⟨name, time, [], cov⟩ :: qs)).Failures = (Report.mk (ps ++ qs)).Failures) ∧
    (Report.mk []).Failures = 0 := by
  have main : ∀ r : Report, r.Failures = (failedTests r : Int) := by
    intro r
    simp [Report.Failures, failedTests, foldl_packages]
  refine ⟨main r, ⟨by decide, by decide⟩, ?_, rfl⟩
  intro ps qs name time cov
  rw [main, main]
  simp [failedTests]

/-- C7: on the empty stream `Parse` returns a report with zero packages and no
error; it makes no `IngestLine` call, and its result is the `Report()` of a new
Free-Text ingester created with the fallback package name. -/
theorem Parse_empty (newJsonlParser newTextParser : String → parser) (pkgName : String)
    (h : ReportsEmptyWhenFresh newTextParser) :
    (Parse newJsonlParser newTextParser ⟨[], Error.EOF⟩ pkgName).ret =
      some (some ⟨[]⟩, none) ∧
    (Parse newJsonlParser newTextParser ⟨[], Error.EOF⟩ pkgName).ret =
      some (newTextParser pkgName).Report ∧
    (Parse newJsonlParser newTextParser ⟨[], Error.EOF⟩ pkgName).calls =
      [Call.ReadLine "" false (some Error.EOF), Call.newTextParser pkgName,
        Call.Report (newTextParser pkgName).Report] ∧
    ingested (Parse newJsonlParser newTextParser ⟨[], Error.EOF⟩ pkgName).calls = [] := by
  have hret : (Parse newJsonlParser newTextParser ⟨[], Error.EOF⟩ pkgName).ret =
      some (newTextParser pkgName).Report := rfl
  refine ⟨?_, hret, rfl, rfl⟩
  rw [hret, h pkgName]

/-- C7, witnessed with the recording ingesters. -/
theorem Parse_empty_witness :
    (Parse (recorder "J") (recorder "T") ⟨[], Error.EOF⟩ "pkg").ret = some (some ⟨[]⟩, none) :=
  (Parse_empty (recorder "J") (recorder "T") "pkg" (fun _ => rfl)).1

/-- C8, as stated, fails: the `Result` of a `Test` that was never assigned one is
not distinct from each of `PASS`, `FAIL` and `SKIP`. -/
theorem unset_Result_not_distinct :
    ¬ (Test.zeroValue.Result ≠ PASS ∧ Test.zeroValue.Result ≠ FAIL ∧
      Test.zeroValue.Result ≠ SKIP) := by
  decide

/-- C8, amended: a `Result` that has never been set holds Go's zero value, which
is `PASS`; `PASS`, `FAIL` and `SKIP` are pairwise distinct, so an unset result
differs from `FAIL` and `SKIP` but not from `PASS`. -/
theorem unset_Result_eq_PASS :
    Result.zeroValue = PASS ∧ Test.zeroValue.Result = PASS ∧
    (∀ name time output, (Test.mk name time Result.zeroValue output).Result = PASS) ∧
    PASS ≠ FAIL ∧ PASS ≠ SKIP ∧ FAIL ≠ SKIP := by
  refine ⟨rfl, rfl, fun _ _ _ => rfl, by decide, by decide, by decide⟩

/-- C10: `Parse` decides once.  At most one ingester is constructed; the record
of calls is a block of reads followed by nothing or by the one constructor call
and calls none of which is a constructor call, so every `IngestLine` call comes
after it; the lines read are the first lines of the stream and the lines
ingested are the first lines read, in order; and once an ingester exists and no
line has been rejected, every line read, whatever its first character, has
been ingested. -/
theorem Parse_decides_once (newJsonlParser newTextParser : String → parser) (r : Reader)
    (pkgName : String) :
    (constructions (Parse newJsonlParser newTextParser r pkgName).calls).length ≤ 1 ∧
    (∃ reads rest, (Parse newJsonlParser newTextParser r pkgName).calls = reads ++ rest ∧
      (∀ c ∈ reads, c.isRead = true) ∧
      (rest = [] ∨ ∃ c tail, rest = c :: tail ∧ c.isNew = true ∧ constructions tail = [])) ∧
    readLines (Parse newJsonlParser newTextParser r pkgName).calls <+: r.lines.map Prod.fst ∧
    ingested (Parse newJsonlParser newTextParser r pkgName).calls <+:
      readLines (Parse newJsonlParser newTextParser r pkgName).calls ∧
    (constructions (Parse newJsonlParser newTextParser r pkgName).calls ≠ [] →
      (∀ c ∈ (Parse newJsonlParser newTextParser r pkgName).calls, c.isRejection = false) →
      ingested (Parse newJsonlParser newTextParser r pkgName).calls =
        readLines (Parse newJsonlParser newTextParser r pkgName).calls) := by
  have hfw := parseLoop_undecided_forwarded newJsonlParser newTextParser pkgName r.err r.lines []
  simp only [List.nil_append] at hfw
  refine ⟨?_, parseLoop_undecided_shape newJsonlParser newTextParser pkgName r.err r.lines [],
    parseLoop_undecided_readLines newJsonlParser newTextParser pkgName r.err r.lines [], ?_, ?_⟩
  · simp only [Parse]
    rw [parseLoop_undecided_constructions]
    split
    · split <;> simp
    · split <;> simp
  · rcases hfw with ⟨_, h2⟩ | ⟨suffix, hs, _⟩
    · simp only [Parse, h2]
      exact List.nil_prefix
    · exact ⟨suffix, hs.symm⟩
  · intro hne hrej
    rcases hfw with ⟨h1, _⟩ | ⟨suffix, hs, h⟩
    · exact absurd h1 hne
    · rcases h with h | ⟨c, hc, hc'⟩
      · subst h
        simpa [Parse] using hs.symm
      · rw [hrej c hc] at hc'
        cases hc'

/-- C10, witnessed on a stream whose first line begins with `{` and whose second
line begins with `=`: every line is ingested, after one constructor call. -/
theorem Parse_decides_once_witness :
    ingested (Parse (recorder "J") (recorder "T")
        ⟨[("\x7ba", false), ("=b", false), ("c", false)], Error.EOF⟩ "pkg").calls =
      readLines (Parse (recorder "J") (recorder "T")
        ⟨[("\x7ba", false), ("=b", false), ("c", false)], Error.EOF⟩ "pkg").calls :=
  (Parse_decides_once (recorder "J") (recorder "T")
    ⟨[("\x7ba", false), ("=b", false), ("c", false)], Error.EOF⟩ "pkg").2.2.2.2
    (by decide) (by decide)

/-- C9, on a line of 4098 bytes, `a` 4096 times and then `{}`, which
`ReadLine` returns in two pieces for a buffer of 4096 bytes: the stream has one
line, which begins with `a`, but `Parse` ingests the two pieces as two lines
and, going by the first character of the second piece, selects the
structured ingester. -/
theorem Parse_splits_long_line :
    wholeLines [(String.mk (List.replicate 4096 'a'), true), ("\x7b\x7d", false)] =
      [String.mk (List.replicate 4096 'a') ++ "\x7b\x7d"] ∧
    isMarker (String.mk (List.replicate 4096 'a') ++ "\x7b\x7d") = false ∧
    ingested (Parse (recorder "J") (recorder "T")
        ⟨[(String.mk (List.replicate 4096 'a'), true), ("\x7b\x7d", false)], Error.EOF⟩ "pkg").calls =
      [String.mk (List.replicate 4096 'a'), "\x7b\x7d"] ∧
    constructions (Parse (recorder "J") (recorder "T")
        ⟨[(String.mk (List.replicate 4096 'a'), true), ("\x7b\x7d", false)], Error.EOF⟩ "pkg").calls =
      [Call.newJsonlParser "pkg"] := by
  have hrep : (String.mk (List.replicate 4096 'a')).data = 'a' :: List.replicate 4095 'a' := rfl
  have hbad : String.mk (List.replicate 4096 'a') ≠ "bad" := by
    intro h
    have h1 : 'a' :: List.replicate 4095 'a' = ['b', 'a', 'd'] := congrArg String.data h
    exact absurd (List.cons.inj h1).1 (by decide)
  have hm := isMarker_of_data _ 'a' _ hrep (by decide) (by decide)
  exact ⟨wholeLines_pair _ _, isMarker_append_of_data _ "\x7b\x7d" 'a' _ hrep (by decide) (by decide),
    Parse_two_pieces _ hm hbad⟩

/-- C13: `Failures` is additive over the concatenation of package lists; hence
it is the same for any reordering of the packages, and for any two reports
whose packages hold, taken together, the same tests up to order. -/
theorem Failures_append (ps qs : List Package) :
    (Report.mk (ps ++ qs)).Failures = (Report.mk ps).Failures + (Report.mk qs).Failures ∧
    (ps.Perm qs → (Report.mk ps).Failures = (Report.mk qs).Failures) ∧
    ((ps.flatMap Package.Tests).Perm (qs.flatMap Package.Tests) →
      (Report.mk ps).Failures = (Report.mk qs).Failures) := by
  refine ⟨?_, ?_, ?_⟩
  · simp only [Failures_eq_sum, failedTests, List.map_append, List.sum_append, Nat.cast_add]
  · intro h
    simp only [Failures_eq_sum, failedTests]
    rw [(h.map _).sum_eq]
  · intro h
    simp only [Failures_eq_sum, failedTests_eq_countP]
    rw [h.countP_eq]

/-- C13, witnessed on two packages in either order, and on the same tests
spread over one package or two. -/
theorem Failures_append_witness :
    (Report.mk [⟨"p", 0, [⟨"a", 0, FAIL, []⟩], ""⟩, ⟨"q", 0, [⟨"b", 0, PASS, []⟩], ""⟩]).Failures =
      (Report.mk [⟨"q", 0, [⟨"b", 0, PASS, []⟩], ""⟩, ⟨"p", 0, [⟨"a", 0, FAIL, []⟩], ""⟩]).Failures ∧
    (Report.mk [⟨"p", 0, [⟨"a", 0, FAIL, []⟩], ""⟩, ⟨"q", 0, [⟨"b", 0, PASS, []⟩], ""⟩]).Failures =
      (Report.mk [⟨"r", 0, [⟨"a", 0, FAIL, []⟩, ⟨"b", 0, PASS, []⟩], ""⟩]).Failures :=
  ⟨(Failures_append _ _).2.1 (List.Perm.swap _ _ _),
   (Failures_append _ _).2.2 (List.Perm.refl _)⟩

/-- C14: `Failures()` lies between 0 and the total number of tests of the
report; it is 0 exactly when no test of any package has `Result` `FAIL`, and
positive exactly when some test has. -/
theorem Failures_bounds (r : Report) :
    0 ≤ r.Failures ∧ r.Failures ≤ (totalTests r : Int) ∧
    (r.Failures = 0 ↔ ∀ p ∈ r.Packages, ∀ t ∈ p.Tests, t.Result ≠ FAIL) ∧
    (0 < r.Failures ↔ ∃ p ∈ r.Packages, ∃ t ∈ p.Tests, t.Result = FAIL) := by
  rw [Failures_eq_sum, failedTests_eq_countP, totalTests_eq_length]
  refine ⟨Int.natCast_nonneg _, ?_, ?_, ?_⟩
  · exact_mod_cast List.countP_le_length _
  · rw [Int.natCast_eq_zero, List.countP_eq_zero]
    simp only [List.mem_flatMap, decide_eq_true_eq]
    constructor
    · intro h p hp t ht
      exact h t ⟨p, hp, ht⟩
    · rintro h t ⟨p, hp, ht⟩
      exact h p hp t ht
  · rw [Int.natCast_pos, List.countP_pos_iff]
    simp only [List.mem_flatMap, decide_eq_true_eq]
    constructor
    · rintro ⟨t, ⟨p, hp, ht⟩, hf⟩
      exact ⟨p, hp, t, ht, hf⟩
    · rintro ⟨p, hp, t, ht, hf⟩
      exact ⟨t, ⟨p, hp, ht⟩, hf⟩

/-- C14, witnessed on a report with one failed and one passed test and on a
report without failed test. -/
theorem Failures_bounds_witness :
    0 < (Report.mk [⟨"p", 0, [⟨"a", 0, FAIL, []⟩, ⟨"b", 0, PASS, []⟩], ""⟩]).Failures ∧
    (Report.mk [⟨"p", 0, [⟨"a", 0, SKIP, []⟩, ⟨"b", 0, PASS, []⟩], ""⟩]).Failures = 0 :=
  ⟨(Failures_bounds _).2.2.2.mpr ⟨_, List.mem_singleton.mpr rfl, ⟨"a", 0, FAIL, []⟩, by simp, rfl⟩,
   (Failures_bounds _).2.2.1.mpr (by decide)⟩

/-- C11: in every run `Report()` is called at most once.  When it is called, the
reads have ended with the end of the stream, the call is the last call of the
run (so no `IngestLine` call follows it) and the end of the stream was read
before it, and every line of the stream has been ingested, in order, none of
them rejected.  On a stream that ends cleanly and with no line rejected,
`Report()` is called exactly once. -/
theorem Parse_Report_once (newJsonlParser newTextParser : String → parser) (r : Reader)
    (pkgName : String) :
    (Parse newJsonlParser newTextParser r pkgName).calls.countP Call.isReport ≤ 1 ∧
    (∀ res, Call.Report res ∈ (Parse newJsonlParser newTextParser r pkgName).calls →
      r.err = Error.EOF ∧
      (∃ pre, (Parse newJsonlParser newTextParser r pkgName).calls = pre ++ [Call.Report res] ∧
        Call.ReadLine "" false (some Error.EOF) ∈ pre ∧ pre.countP Call.isReport = 0) ∧
      ingested (Parse newJsonlParser newTextParser r pkgName).calls = r.lines.map Prod.fst ∧
      ∀ c ∈ (Parse newJsonlParser newTextParser r pkgName).calls, c.isRejection = false) ∧
    (r.err = Error.EOF →
      (∀ c ∈ (Parse newJsonlParser newTextParser r pkgName).calls, c.isRejection = false) →
      (Parse newJsonlParser newTextParser r pkgName).calls.countP Call.isReport = 1) := by
  have hrun := Parse_run newJsonlParser newTextParser r pkgName
  have ho := hrun.ends
  have hcount : ∀ pre : List Call, (∀ c ∈ pre, c.returns = none) →
      pre.countP Call.isReport = 0 := by
    intro pre hpre
    rw [List.countP_eq_zero]
    intro c hc hrep
    exact returns_of_isReport c hrep (hpre c hc)
  refine ⟨?_, ?_, ?_⟩
  · obtain ⟨pre, last, _, hcalls, hpre, _, _⟩ := ho
    rw [hcalls, List.countP_append, hcount pre hpre]
    simpa using List.countP_le_length (l := [last]) Call.isReport
  · intro res hm
    obtain ⟨_, pre, hcalls, hpre⟩ := ho.of_mem _ res hm rfl
    have heof : r.err = Error.EOF := hrun.report_mem res hm
    obtain ⟨hread, hmem⟩ :=
      parseLoop_undecided_readToEnd newJsonlParser newTextParser pkgName r.err r.lines [] ⟨res, hm⟩
    have hrej : ∀ c ∈ (Parse newJsonlParser newTextParser r pkgName).calls,
        c.isRejection = false := by
      intro c hc
      cases hcr : c.isRejection with
      | false => rfl
      | true =>
        obtain ⟨l, e, rfl⟩ := returns_of_isRejection c hcr
        exact absurd hm (ho.not_mem _ _ (none, some e) res hc rfl rfl (by simp))
    refine ⟨heof, ⟨pre, hcalls, ?_, hcount pre hpre⟩, ?_, hrej⟩
    · have hmem' : Call.ReadLine "" false (some Error.EOF) ∈
          (Parse newJsonlParser newTextParser r pkgName).calls := hmem
      rw [hcalls] at hmem'
      simpa using hmem'
    · have hfw := parseLoop_undecided_forwarded newJsonlParser newTextParser pkgName
        r.err r.lines []
      have hcons := parseLoop_undecided_constructions newJsonlParser newTextParser pkgName
        r.err r.lines []
      simp only [List.nil_append] at hfw
      rcases hfw with ⟨h1, _⟩ | ⟨suffix, hs, h⟩
      · rw [h1, heof] at hcons
        split at hcons
        · split at hcons <;> simp at hcons
        · simp at hcons
      · rcases h with h | ⟨c, hc, hc'⟩
        · subst h
          have hs' : ingested (Parse newJsonlParser newTextParser r pkgName).calls =
              readLines (Parse newJsonlParser newTextParser r pkgName).calls := by
            simpa [Parse] using hs.symm
          rw [hs']
          exact hread
        · rw [hrej c hc] at hc'
          cases hc'
  · intro heof hrej
    obtain ⟨pre, last, res, hcalls, hpre, hlast, _⟩ := ho
    have hlmem : last ∈ (Parse newJsonlParser newTextParser r pkgName).calls := by
      rw [hcalls]
      simp
    rw [hcalls, List.countP_append, hcount pre hpre]
    cases last with
    | ReadLine l b e =>
      cases e with
      | none => simp [Call.returns] at hlast
      | some e =>
        rcases hrun.read_err l b e hlmem with he | he
        · simp [Call.returns, he] at hlast
        · rw [heof] at he
          simp [Call.returns, he] at hlast
    | newJsonlParser n => simp [Call.returns] at hlast
    | newTextParser n => simp [Call.returns] at hlast
    | IngestLine l e =>
      cases e with
      | none => simp [Call.returns] at hlast
      | some e =>
        have := hrej _ hlmem
        simp [Call.isRejection] at this
    | Report res' => simp [Call.isReport]

/-- C11, witnessed on a clean stream of three lines. -/
theorem Parse_Report_once_witness :
    (Parse (recorder "J") (recorder "T")
      ⟨[("a", false), ("=b", false), ("c", false)], Error.EOF⟩ "pkg").calls.countP
        Call.isReport = 1 :=
  (Parse_Report_once (recorder "J") (recorder "T")
    ⟨[("a", false), ("=b", false), ("c", false)], Error.EOF⟩ "pkg").2.2 rfl (by decide)

/-- C12: if the reads fail with an error other than end of stream before any
line beginning with `{` or `=` has been read, `Parse` returns a nil report with
that error, and its calls are the reads alone: no ingester is constructed and
no `IngestLine` call is made. -/
theorem Parse_read_error_undecided (newJsonlParser newTextParser : String → parser)
    (r : Reader) (pkgName : String) (hne : r.err ≠ Error.EOF)
    (h : ∀ x ∈ r.lines, isMarker x.1 = false) :
    (Parse newJsonlParser newTextParser r pkgName).ret = some (none, some r.err) ∧
    (Parse newJsonlParser newTextParser r pkgName).calls =
      r.lines.map (fun x => Call.ReadLine x.1 x.2 none) ++
        [Call.ReadLine "" false (some r.err)] ∧
    constructions (Parse newJsonlParser newTextParser r pkgName).calls = [] ∧
    ingested (Parse newJsonlParser newTextParser r pkgName).calls = [] := by
  have hp := parseLoop_no_marker newJsonlParser newTextParser pkgName r.err hne r.lines [] h
  have hP : Parse newJsonlParser newTextParser r pkgName =
      ⟨some (none, some r.err),
        r.lines.map (fun x => Call.ReadLine x.1 x.2 none) ++
          [Call.ReadLine "" false (some r.err)]⟩ := hp
  rw [hP]
  exact ⟨rfl, rfl, constructions_reads _ _, ingested_reads _ _⟩

/-- C12, witnessed on a stream whose only line, still in the backlog when the
next read fails, is one that either ingester would reject: the caller gets the
read error. -/
theorem Parse_read_error_undecided_witness :
    ((recorder "J" "pkg").IngestLine "bad").2 = some (Error.other "bad line") ∧
    ((recorder "T" "pkg").IngestLine "bad").2 = some (Error.other "bad line") ∧
    (Parse (recorder "J") (recorder "T")
      ⟨[("bad", false)], Error.other "read failed"⟩ "pkg").ret =
        some (none, some (Error.other "read failed")) ∧
    (Parse (recorder "J") (recorder "T")
      ⟨[("bad", false)], Error.other "read failed"⟩ "pkg").calls =
        [Call.ReadLine "bad" false none,
          Call.ReadLine "" false (some (Error.other "read failed"))] :=
  ⟨rfl, rfl,
    (Parse_read_error_undecided (recorder "J") (recorder "T")
      ⟨[("bad", false)], Error.other "read failed"⟩ "pkg" (by decide) (by decide)).1,
    (Parse_read_error_undecided (recorder "J") (recorder "T")
      ⟨[("bad", false)], Error.other "read failed"⟩ "pkg" (by decide) (by decide)).2.1⟩

end GoJunitReport
